import Mathlib

/-!
# Verification of the AILinks ingestion pipeline against its specification

This file gives a shallow embedding, in Lean 4, of the core of the AILinks
repository (`src/services/dbService.ts`, `src/App.tsx`, and the parser /
enrichment service), and proves or refutes the frozen specification claims.

Modelling conventions:

* JavaScript strings are modelled as `List Char` internally, wrapped into
  `String` at the interfaces.  Each definition mirrors one source function
  and keeps its name where Lean allows.
* The browser `URL` class (used by `normalizeUrl` in `dbService.ts`) is
  modelled for hierarchical `scheme://host/path?query#fragment` URLs:
  scheme and host are lower-cased, the path is kept verbatim, the query is
  parsed into name/value pairs split on `&` and first `=`.  Out of the
  model's scope (parse failure in the model): ports, userinfo, backslash
  separators, and non-hierarchical schemes.  Percent encoding and plus
  encoding of the query are not modelled; names and values are kept
  verbatim.
* `JSON.parse` / `JSON.stringify`, which the store applies to the
  `etiquetas` / `urls` text columns, are modelled for arrays of strings
  (`jsonStringifyL` / `jsonParseL`), with the escapes that `stringify`
  emits for quote and backslash.  Parsing of JSON values that are not
  arrays of strings is out of scope; such inputs fail in the model just
  like malformed JSON.
-/

/-! ## ASCII lower-casing, as performed by case-insensitive regexes and by
the browser URL parser on scheme and host. -/

/-- ASCII lower-casing of a single character (`/i` regex comparison and URL
scheme/host normalization), as in `Char.toLower` restricted to basic
latin. -/
def lc (c : Char) : Char :=
  if 65 ≤ c.toNat ∧ c.toNat ≤ 90 then Char.ofNat (c.toNat + 32) else c

theorem char_toNat_inj {c d : Char} (h : c.toNat = d.toNat) : c = d := by
  apply Char.eq_of_val_eq
  exact UInt32.toNat.inj h

theorem lc_toNat (c : Char) :
    (lc c).toNat = if 65 ≤ c.toNat ∧ c.toNat ≤ 90 then c.toNat + 32 else c.toNat := by
  unfold lc
  split
  · next h =>
    rw [Char.ofNat, dif_pos (Or.inl (by omega))]
    rfl
  · rfl

theorem lc_idem (c : Char) : lc (lc c) = lc c := by
  apply char_toNat_inj
  rw [lc_toNat (lc c), lc_toNat c]
  split_ifs <;> omega

theorem map_lc_idem (l : List Char) : (l.map lc).map lc = l.map lc := by
  induction l with
  | nil => rfl
  | cons c t ih => simp only [List.map_cons, lc_idem, ih]

/-- `lc` only moves upper-case ASCII letters: a character outside the
lower-case letter range `a`..`z` is produced by `lc` only from itself. -/
theorem eq_of_lc_eq {c d : Char} (hd : ¬ (97 ≤ d.toNat ∧ d.toNat ≤ 122))
    (h : lc c = d) : c = d := by
  apply char_toNat_inj
  have ht := lc_toNat c
  rw [h] at ht
  by_cases hc : 65 ≤ c.toNat ∧ c.toNat ≤ 90
  · rw [if_pos hc] at ht; omega
  · rw [if_neg hc] at ht; omega

theorem lc_fixed_of_not_upper {c : Char} (h : ¬ (65 ≤ c.toNat ∧ c.toNat ≤ 90)) :
    lc c = c := by
  unfold lc; rw [if_neg h]

/-! ## Case-insensitive literal matching (the building block of the
`/^https?:\/\/(x\.com|twitter\.com)\/([^\/]+)\/status\/(\d+)/i` regex of
`normalizeUrl` in `dbService.ts`). -/

/-- `matchCI pat xs` consumes a case-insensitive occurrence of the
(lower-case) literal `pat` at the head of `xs`, returning the remainder. -/
def matchCI : List Char → List Char → Option (List Char)
  | [], xs => some xs
  | _ :: _, [] => none
  | p :: ps, c :: cs => if lc c = p then matchCI ps cs else none

theorem matchCI_of_map_lc {pat pre : List Char} (r : List Char)
    (h : pre.map lc = pat) : matchCI pat (pre ++ r) = some r := by
  induction pre generalizing pat with
  | nil => subst h; rfl
  | cons c t ih =>
    subst h
    simp only [List.map_cons, List.cons_append, matchCI, if_pos rfl]
    exact ih rfl

theorem matchCI_some {pat xs r : List Char} (h : matchCI pat xs = some r) :
    ∃ pre, xs = pre ++ r ∧ pre.map lc = pat := by
  induction pat generalizing xs with
  | nil =>
    simp only [matchCI, Option.some.injEq] at h
    exact ⟨[], by simp [h]⟩
  | cons p ps ih =>
    cases xs with
    | nil => simp [matchCI] at h
    | cons c cs =>
      by_cases hc : lc c = p
      · rw [matchCI, if_pos hc] at h
        obtain ⟨pre, rfl, hm⟩ := ih h
        exact ⟨c :: pre, rfl, by simp [hm, hc]⟩
      · rw [matchCI, if_neg hc] at h
        exact absurd h (by simp)

theorem map_lc_cons {l : List Char} {a : Char} {t : List Char}
    (h : l.map lc = a :: t) :
    ∃ c l2, l = c :: l2 ∧ lc c = a ∧ l2.map lc = t := by
  cases l with
  | nil => simp at h
  | cons c l2 =>
    simp only [List.map_cons, List.cons.injEq] at h
    exact ⟨c, l2, rfl, h.1, h.2⟩

/-! ## The social-post branch of `normalizeUrl` (dbService.ts lines 22-32):
the regex `^https?://(x.com|twitter.com)/([^/]+)/status/(\d+)` (case
insensitive), and the canonical replacement
`https://x.com/${username}/status/${statusId}`. -/

def httpPat : List Char := ['h', 't', 't', 'p']

def sepPat : List Char := [':', '/', '/']

def xcomPat : List Char := ['x', '.', 'c', 'o', 'm']

def twitterPat : List Char := ['t', 'w', 'i', 't', 't', 'e', 'r', '.', 'c', 'o', 'm']

def statusPat : List Char := ['/', 's', 't', 'a', 't', 'u', 's', '/']

/-- The optional `s` of `https?`. -/
def optS : List Char → List Char
  | [] => []
  | c :: t => if lc c = 's' then t else c :: t

/-- The host alternation `(x.com|twitter.com)`; the alternatives differ in
their first letter, so first-match is the regex semantics. -/
def hostAlt (cs : List Char) : Option (List Char) :=
  match matchCI xcomPat cs with
  | some r => some r
  | none => matchCI twitterPat cs

def notSlash (c : Char) : Bool := decide (c ≠ '/')

/-- The whole social-post regex as a deterministic matcher returning the
two captures `([^/]+)` (user) and `(\d+)` (status id).  Greedy matching of
`[^/]+` and `\d+` is maximal munch (`takeWhile`): the character class
excludes the character that must follow the group, so no backtracking can
produce a different capture. -/
def afterHost : List Char → Option (List Char × List Char)
  | '/' :: r5 =>
    if r5.takeWhile notSlash = [] then none
    else
      (matchCI statusPat (r5.dropWhile notSlash)).bind fun r7 =>
        if r7.takeWhile Char.isDigit = [] then none
        else some (r5.takeWhile notSlash, r7.takeWhile Char.isDigit)
  | _ => none

def twitterMatch (cs : List Char) : Option (List Char × List Char) :=
  (matchCI httpPat cs).bind fun r1 =>
    (matchCI sepPat (optS r1)).bind fun r3 =>
      (hostAlt r3).bind fun r4 => afterHost r4

/-- `https://x.com/${username}/status/${statusId}` (dbService.ts line 31). -/
def mkTwitter (user id : List Char) : List Char :=
  ('h' :: 't' :: 't' :: 'p' :: 's' :: sepPat) ++ xcomPat ++ ('/' :: user) ++ statusPat ++ id

theorem matchCI_cons {p : Char} {ps : List Char} {c : Char} {cs : List Char} :
    matchCI (p :: ps) (c :: cs) = if lc c = p then matchCI ps cs else none := rfl

theorem lc_colon_head (X : List Char) : optS (sepPat ++ X) = sepPat ++ X := by
  show optS (':' :: ('/' :: '/' :: X)) = _
  rw [optS, if_neg (by decide)]
  rfl

theorem http_opt_step {sch : List Char} (X : List Char)
    (h : sch.map lc = httpPat ∨ sch.map lc = httpPat ++ ['s']) :
    ∃ r1, matchCI httpPat (sch ++ (sepPat ++ X)) = some r1 ∧ optS r1 = sepPat ++ X := by
  rcases h with h | h
  · exact ⟨sepPat ++ X, matchCI_of_map_lc _ h, lc_colon_head X⟩
  · have h5 : sch.map lc = 'h' :: 't' :: 't' :: 'p' :: 's' :: [] := by rw [h]; rfl
    obtain ⟨c1, t1, rfl, e1, h5⟩ := map_lc_cons h5
    obtain ⟨c2, t2, rfl, e2, h5⟩ := map_lc_cons h5
    obtain ⟨c3, t3, rfl, e3, h5⟩ := map_lc_cons h5
    obtain ⟨c4, t4, rfl, e4, h5⟩ := map_lc_cons h5
    obtain ⟨c5, t5, rfl, e5, h5⟩ := map_lc_cons h5
    have ht5 : t5 = [] := List.map_eq_nil_iff.mp h5
    subst ht5
    refine ⟨c5 :: (sepPat ++ X), ?_, ?_⟩
    · show matchCI ('h' :: 't' :: 't' :: 'p' :: []) _ = _
      simp only [List.cons_append, List.nil_append]
      rw [matchCI_cons, if_pos e1, matchCI_cons, if_pos e2, matchCI_cons, if_pos e3,
        matchCI_cons, if_pos e4]
      rfl
    · rw [optS, if_pos e5]

theorem host_step {hst : List Char} (Y : List Char)
    (h : hst.map lc = xcomPat ∨ hst.map lc = twitterPat) :
    hostAlt (hst ++ Y) = some Y := by
  rcases h with h | h
  · rw [hostAlt, matchCI_of_map_lc _ h]
  · have h11 : hst.map lc =
        't' :: 'w' :: 'i' :: 't' :: 't' :: 'e' :: 'r' :: '.' :: 'c' :: 'o' :: 'm' :: [] := by
      rw [h]; rfl
    obtain ⟨c1, t1, rfl, e1, _⟩ := map_lc_cons h11
    have hx : matchCI xcomPat ((c1 :: t1) ++ Y) = none := by
      show matchCI ('x' :: '.' :: 'c' :: 'o' :: 'm' :: []) _ = _
      rw [List.cons_append, matchCI_cons, if_neg (by rw [e1]; decide)]
    rw [hostAlt, hx, matchCI_of_map_lc _ h]

/-- Completeness of the social-post matcher: any input decomposable along
the regex shape is matched, with the expected captures. -/
theorem twitterMatch_of_parts {sch hst u st d rest : List Char}
    (hsch : sch.map lc = httpPat ∨ sch.map lc = httpPat ++ ['s'])
    (hhst : hst.map lc = xcomPat ∨ hst.map lc = twitterPat)
    (hu : u ≠ []) (hu2 : ∀ c ∈ u, c ≠ '/')
    (hst2 : st.map lc = statusPat)
    (hd : d ≠ []) (hd2 : ∀ c ∈ d, c.isDigit = true)
    (hrest : rest = [] ∨ ∃ c t, rest = c :: t ∧ c.isDigit = false) :
    twitterMatch (sch ++ (sepPat ++ (hst ++ ('/' :: (u ++ (st ++ (d ++ rest))))))) =
      some (u, d) := by
  obtain ⟨r1, h1, h2⟩ := http_opt_step (hst ++ ('/' :: (u ++ (st ++ (d ++ rest))))) hsch
  have hu2b : ∀ c ∈ u, notSlash c = true := by
    intro c hc; simp [notSlash, hu2 c hc]
  have hstHead : ∃ st2, st = '/' :: st2 := by
    have h8 : st.map lc = '/' :: ('s' :: 't' :: 'a' :: 't' :: 'u' :: 's' :: '/' :: []) := by
      rw [hst2]; rfl
    obtain ⟨c0, st2, rfl, e0, _⟩ := map_lc_cons h8
    have : c0 = '/' := eq_of_lc_eq (by decide) e0
    exact ⟨st2, by rw [this]⟩
  obtain ⟨st2, rfl⟩ := hstHead
  have htake : (u ++ (('/' :: st2) ++ (d ++ rest))).takeWhile notSlash = u := by
    rw [List.takeWhile_append_of_pos hu2b]
    simp [List.takeWhile_cons, notSlash]
  have hdrop : (u ++ (('/' :: st2) ++ (d ++ rest))).dropWhile notSlash =
      ('/' :: st2) ++ (d ++ rest) := by
    rw [List.dropWhile_append_of_pos hu2b]
    simp [List.dropWhile_cons, notSlash]
  have hstatus : matchCI statusPat ((('/' :: st2) ++ (d ++ rest))) = some (d ++ rest) :=
    matchCI_of_map_lc _ hst2
  have hdig : (d ++ rest).takeWhile Char.isDigit = d := by
    rcases hrest with rfl | ⟨c, t, rfl, hcd⟩
    · rw [List.append_nil]
      exact List.takeWhile_eq_self_iff.mpr hd2
    · rw [List.takeWhile_append_of_pos hd2]
      simp [List.takeWhile_cons, hcd]
  have hsep : matchCI sepPat (sepPat ++ (hst ++ ('/' :: (u ++ (('/' :: st2) ++ (d ++ rest)))))) =
      some (hst ++ ('/' :: (u ++ (('/' :: st2) ++ (d ++ rest))))) :=
    matchCI_of_map_lc _ (by decide)
  have hhost : hostAlt (hst ++ ('/' :: (u ++ (('/' :: st2) ++ (d ++ rest))))) =
      some ('/' :: (u ++ (('/' :: st2) ++ (d ++ rest)))) :=
    host_step _ hhst
  rw [twitterMatch, h1, Option.some_bind, h2, hsep, Option.some_bind, hhost,
    Option.some_bind, afterHost, htake, if_neg hu, hdrop, hstatus, Option.some_bind,
    hdig, if_neg hd]

/-- The canonical social-post string produced by the matcher's replacement
is itself matched, with the same captures. -/
theorem twitterMatch_mk {u d : List Char}
    (hu : u ≠ []) (hu2 : ∀ c ∈ u, c ≠ '/')
    (hd : d ≠ []) (hd2 : ∀ c ∈ d, c.isDigit = true) :
    twitterMatch (mkTwitter u d) = some (u, d) := by
  have h := @twitterMatch_of_parts ['h', 't', 't', 'p', 's'] xcomPat u statusPat d []
    (Or.inr (by decide)) (Or.inl (by decide)) hu hu2 (by decide) hd hd2 (Or.inl rfl)
  have hshape : mkTwitter u d =
      ['h', 't', 't', 'p', 's'] ++ (sepPat ++ (xcomPat ++ ('/' :: (u ++ (statusPat ++ (d ++ [])))))) := by
    simp [mkTwitter, List.append_assoc]
  rw [hshape]
  exact h

/-- Soundness-lite: the captures of a successful social-post match are a
non-empty slash-free user segment and a non-empty digit string. -/
theorem twitterMatch_props {cs : List Char} {u d : List Char}
    (h : twitterMatch cs = some (u, d)) :
    u ≠ [] ∧ (∀ c ∈ u, c ≠ '/') ∧ d ≠ [] ∧ (∀ c ∈ d, c.isDigit = true) := by
  rw [twitterMatch] at h
  cases h1 : matchCI httpPat cs with
  | none => rw [h1] at h; simp at h
  | some r1 =>
    rw [h1, Option.some_bind] at h
    cases h3 : matchCI sepPat (optS r1) with
    | none => rw [h3] at h; simp at h
    | some r3 =>
      rw [h3, Option.some_bind] at h
      cases h4 : hostAlt r3 with
      | none => rw [h4] at h; simp at h
      | some r4 =>
        rw [h4, Option.some_bind, afterHost.eq_def] at h
        split at h
        · next r5 =>
          split_ifs at h with hemp
          cases h7 : matchCI statusPat (r5.dropWhile notSlash) with
          | none => rw [h7] at h; simp at h
          | some r7 =>
            rw [h7, Option.some_bind] at h
            split_ifs at h with hemp2
            rw [Option.some.injEq, Prod.mk.injEq] at h
            obtain ⟨hu', hd'⟩ := h
            subst hu'; subst hd'
            refine ⟨hemp, ?_, hemp2, ?_⟩
            · intro c hc
              have := List.mem_takeWhile_imp hc
              simpa [notSlash] using this
            · intro c hc
              exact List.mem_takeWhile_imp hc
        · simp at h

/-! ## The general-URL branch of `normalizeUrl` (dbService.ts lines 36-51):
a model of the browser `URL` class restricted to hierarchical URLs
`scheme://host/path?query#fragment` (see the header for the model scope).
The query is held as the parsed name/value list, which is what
`url.searchParams` exposes; `searchParams.delete` for the six tracking
parameters becomes a filter on that list. -/

structure UrlParts where
  scheme : List Char
  host : List Char
  path : List Char
  query : List (List Char × List Char)
  frag : Option (List Char)
deriving DecidableEq

def schemeChar (c : Char) : Bool :=
  c.isAlpha || c.isDigit || decide (c = '+') || decide (c = '-') || decide (c = '.')

def hostChar (c : Char) : Bool :=
  !(decide (c = '/') || decide (c = '?') || decide (c = '#') || decide (c = ':')
    || decide (c = '@') || decide (c = '\\'))

def pathChar (c : Char) : Bool := !(decide (c = '?') || decide (c = '#'))

def notEqCh (c : Char) : Bool := decide (c ≠ '=')

def notHash (c : Char) : Bool := decide (c ≠ '#')

/-- Split on `&` (first step of the urlencoded query parser). -/
def splitAmp : List Char → List (List Char)
  | [] => [[]]
  | c :: t =>
    if c = '&' then [] :: splitAmp t
    else
      match splitAmp t with
      | [] => [[c]]
      | h :: r => (c :: h) :: r

/-- Split one `name=value` piece at the first `=`; a piece without `=`
yields an empty value. -/
def splitEq (piece : List Char) : List Char × List Char :=
  (piece.takeWhile notEqCh, (piece.dropWhile notEqCh).tail)

/-- The urlencoded query parser: split on `&`, drop empty pieces, split
each piece at its first `=`. -/
def qparse (qs : List Char) : List (List Char × List Char) :=
  ((splitAmp qs).filter (fun p => decide (p ≠ []))).map splitEq

/-- The urlencoded query serializer: `name=value` pairs joined by `&`
(a pair parsed from a piece without `=` is re-emitted with `=`, as the
WHATWG serializer does). -/
def qserialize : List (List Char × List Char) → List Char
  | [] => []
  | [p] => p.1 ++ '=' :: p.2
  | p :: rest => p.1 ++ '=' :: p.2 ++ '&' :: qserialize rest

/-- The fragment, if the remainder after the query starts with `#`. -/
def fragOf : List Char → Option (List Char)
  | [] => none
  | c :: f => if c = '#' then some f else none

/-- Query and fragment of the remainder following host and path. -/
def parseQF : List Char → List (List Char × List Char) × Option (List Char)
  | [] => ([], none)
  | c :: r =>
    if c = '?' then (qparse (r.takeWhile notHash), fragOf (r.dropWhile notHash))
    else if c = '#' then ([], some r)
    else ([], none)

/-- The model `URL` parser (`new URL(url)`): scheme, `://`, host, path,
query, fragment.  Scheme and host are lower-cased; an absent path becomes
`/`.  Ports, userinfo, backslashes and non-hierarchical schemes are out of
the model and fail to parse. -/
def parseUrlL (cs : List Char) : Option UrlParts :=
  match cs.takeWhile schemeChar with
  | [] => none
  | c0 :: sch' =>
    if c0.isAlpha then
      match cs.dropWhile schemeChar with
      | a :: b :: c :: r1 =>
        if a = ':' ∧ b = '/' ∧ c = '/' then
          let host := r1.takeWhile hostChar
          let r2 := r1.dropWhile hostChar
          if host = [] then none
          else
            match r2 with
            | [] => some ⟨(c0 :: sch').map lc, host.map lc, ['/'], [], none⟩
            | c2 :: _ =>
              if c2 = '/' then
                let qf := parseQF (r2.dropWhile pathChar)
                some ⟨(c0 :: sch').map lc, host.map lc, r2.takeWhile pathChar, qf.1, qf.2⟩
              else if c2 = '?' ∨ c2 = '#' then
                let qf := parseQF r2
                some ⟨(c0 :: sch').map lc, host.map lc, ['/'], qf.1, qf.2⟩
              else none
        else none
      | _ => none
    else none

/-- `urlObj.origin + urlObj.pathname` (dbService.ts line 44). -/
def serializeBase (m : UrlParts) : List Char :=
  m.scheme ++ sepPat ++ m.host ++ m.path

/-- Fragment serialization (`#fragment`, or nothing). -/
def fragPart : Option (List Char) → List Char
  | some f => '#' :: f
  | none => []

/-- `urlObj.toString()` (dbService.ts line 47) for a URL whose remaining
query `q` is non-empty. -/
def serializeFull (m : UrlParts) (q : List (List Char × List Char)) : List Char :=
  serializeBase m ++ '?' :: qserialize q ++ fragPart m.frag

/-- The six tracking parameter names deleted by `normalizeUrl`
(dbService.ts line 39). -/
def trackingNames : List (List Char) :=
  [['t'], ['s'], "utm_source".data, "utm_medium".data, "utm_campaign".data, "ref".data]

/-- `normalizeUrl` (dbService.ts lines 18-55) on character lists: empty
input is returned as is; a social-post match is canonicalized to
`https://x.com/user/status/id`; otherwise the URL is parsed, the tracking
parameters are deleted, and the URL is re-serialized without query and
fragment if no query parameters remain, with them otherwise; unparseable
input is returned unchanged. -/
def normalizeUrlL (cs : List Char) : List Char :=
  if cs = [] then cs
  else
    match twitterMatch cs with
    | some (u, d) => mkTwitter u d
    | none =>
      match parseUrlL cs with
      | none => cs
      | some m =>
        let q := m.query.filter fun p => decide (p.1 ∉ trackingNames)
        if q = [] then serializeBase m else serializeFull m q

/-- `normalizeUrl` on strings (the form used by `saveToDb`). -/
def normalizeUrl (s : String) : String := ⟨normalizeUrlL s.data⟩

/-! ## Round-trip properties of the query codec. -/

theorem splitAmp_ne_nil (cs : List Char) : splitAmp cs ≠ [] := by
  cases cs with
  | nil => simp [splitAmp]
  | cons c t =>
    rw [splitAmp]
    split
    · simp
    · cases h : splitAmp t <;> simp

theorem splitAmp_of_no_amp {xs : List Char} (h : '&' ∉ xs) : splitAmp xs = [xs] := by
  induction xs with
  | nil => rfl
  | cons c t ih =>
    rw [splitAmp, if_neg (by simp at h; exact fun hc => h.1 hc.symm),
      ih (by simp at h; exact h.2)]

theorem splitAmp_append {xs ys : List Char} (h : '&' ∉ xs) :
    splitAmp (xs ++ '&' :: ys) = xs :: splitAmp ys := by
  induction xs with
  | nil => simp [splitAmp]
  | cons c t ih =>
    rw [List.cons_append, splitAmp, if_neg (by simp at h; exact fun hc => h.1 hc.symm),
      ih (by simp at h; exact h.2)]

theorem splitEq_mk {n v : List Char} (h : '=' ∉ n) :
    splitEq (n ++ '=' :: v) = (n, v) := by
  have hn : ∀ c ∈ n, notEqCh c = true := by
    intro c hc
    simp only [notEqCh, decide_eq_true_eq]
    exact fun he => h (he ▸ hc)
  rw [splitEq, List.takeWhile_append_of_pos hn, List.dropWhile_append_of_pos hn]
  simp [List.takeWhile_cons, List.dropWhile_cons, notEqCh]

/-- Well-formedness of a query pair, as guaranteed for pairs produced by
the query parser: no `&` anywhere, no `=` in the name, no `#` anywhere. -/
def wfQPair (p : List Char × List Char) : Prop :=
  '&' ∉ p.1 ∧ '&' ∉ p.2 ∧ '=' ∉ p.1 ∧ '#' ∉ p.1 ∧ '#' ∉ p.2

theorem qserialize_cons {p : List Char × List Char} {rest : List (List Char × List Char)}
    (h : rest ≠ []) :
    qserialize (p :: rest) = p.1 ++ '=' :: p.2 ++ '&' :: qserialize rest := by
  cases rest with
  | nil => exact absurd rfl h
  | cons q r => rfl

theorem qparse_qserialize {L : List (List Char × List Char)}
    (h : ∀ p ∈ L, wfQPair p) : qparse (qserialize L) = L := by
  induction L with
  | nil => rfl
  | cons p rest ih =>
    obtain ⟨h1, h2, h3, _, _⟩ := h p (List.mem_cons_self p rest)
    have hxs : '&' ∉ p.1 ++ '=' :: p.2 := by
      simp only [List.mem_append, List.mem_cons, not_or]
      exact ⟨h1, by decide, h2⟩
    have hpe : splitEq (p.1 ++ '=' :: p.2) = p := by
      rw [splitEq_mk h3]
    cases rest with
    | nil =>
      show qparse (p.1 ++ '=' :: p.2) = [p]
      rw [qparse, splitAmp_of_no_amp hxs]
      rw [List.filter_cons_of_pos (by simp), List.filter_nil, List.map_cons,
        List.map_nil, hpe]
    | cons q r =>
      rw [qserialize_cons (by simp), qparse,
        show p.1 ++ '=' :: p.2 ++ '&' :: qserialize (q :: r) =
          (p.1 ++ '=' :: p.2) ++ '&' :: qserialize (q :: r) by
            simp [List.append_assoc],
        splitAmp_append hxs,
        List.filter_cons_of_pos (by simp), List.map_cons, hpe]
      exact congrArg (p :: ·) (ih fun a ha => h a (List.mem_cons_of_mem p ha))

theorem char_le_iff_toNat {a b : Char} : a ≤ b ↔ a.toNat ≤ b.toNat := Iff.rfl

theorem lc_eq_or_lower (c : Char) :
    lc c = c ∨ (97 ≤ (lc c).toNat ∧ (lc c).toNat ≤ 122) := by
  by_cases h : 65 ≤ c.toNat ∧ c.toNat ≤ 90
  · right; rw [lc_toNat, if_pos h]; omega
  · left; exact lc_fixed_of_not_upper h

theorem isAlpha_of_lower {c : Char} (h1 : 97 ≤ c.toNat) (h2 : c.toNat ≤ 122) :
    c.isAlpha = true := by
  simp only [Char.isAlpha, Char.isLower, Bool.or_eq_true, Bool.and_eq_true,
    decide_eq_true_eq]
  right
  exact ⟨h1, h2⟩

theorem isAlpha_lc {c : Char} (h : c.isAlpha = true) : (lc c).isAlpha = true := by
  rcases lc_eq_or_lower c with he | ⟨h1, h2⟩
  · rw [he]; exact h
  · exact isAlpha_of_lower h1 h2

theorem schemeChar_lc {c : Char} (h : schemeChar c = true) : schemeChar (lc c) = true := by
  rcases lc_eq_or_lower c with he | ⟨h1, h2⟩
  · rw [he]; exact h
  · simp only [schemeChar, Bool.or_eq_true]
    exact Or.inl (Or.inl (Or.inl (Or.inl (isAlpha_of_lower h1 h2))))

theorem hostChar_iff {d : Char} : hostChar d = true ↔
    d ≠ '/' ∧ d ≠ '?' ∧ d ≠ '#' ∧ d ≠ ':' ∧ d ≠ '@' ∧ d ≠ '\\' := by
  simp [hostChar, not_or, and_assoc]

theorem ne_char_of_lower {d : Char} {x : Char} (h1 : 97 ≤ d.toNat)
    (hx : x.toNat < 97) : d ≠ x := by
  intro he
  rw [he] at h1
  omega

theorem hostChar_lc {c : Char} (h : hostChar c = true) : hostChar (lc c) = true := by
  rcases lc_eq_or_lower c with he | ⟨h1, h2⟩
  · rw [he]; exact h
  · rw [hostChar_iff]
    refine ⟨?_, ?_, ?_, ?_, ?_, ?_⟩ <;> exact ne_char_of_lower h1 (by decide)

/-! Pieces produced by `splitAmp` contain no `&`, and only characters of
the input. -/

theorem splitAmp_no_amp {cs : List Char} : ∀ l ∈ splitAmp cs, '&' ∉ l := by
  induction cs with
  | nil => intro l hl; simp [splitAmp] at hl; simp [hl]
  | cons c t ih =>
    intro l hl
    rw [splitAmp] at hl
    split at hl
    · rcases List.mem_cons.mp hl with rfl | hl
      · simp
      · exact ih l hl
    · next hc =>
      cases hs : splitAmp t with
      | nil => exact absurd hs (splitAmp_ne_nil t)
      | cons a r =>
        rw [hs] at hl
        rcases List.mem_cons.mp hl with rfl | hl
        · intro hmem
          rcases List.mem_cons.mp hmem with he | hmem
          · exact hc he.symm
          · exact ih a (hs ▸ List.mem_cons_self a r) hmem
        · exact ih l (hs ▸ List.mem_cons_of_mem a hl)

theorem splitAmp_subset {cs : List Char} : ∀ l ∈ splitAmp cs, ∀ c ∈ l, c ∈ cs := by
  induction cs with
  | nil => intro l hl; simp [splitAmp] at hl; simp [hl]
  | cons c t ih =>
    intro l hl x hx
    rw [splitAmp] at hl
    split at hl
    · rcases List.mem_cons.mp hl with rfl | hl
      · simp at hx
      · exact List.mem_cons_of_mem c (ih l hl x hx)
    · cases hs : splitAmp t with
      | nil => exact absurd hs (splitAmp_ne_nil t)
      | cons a r =>
        rw [hs] at hl
        rcases List.mem_cons.mp hl with rfl | hl
        · rcases List.mem_cons.mp hx with rfl | hx
          · exact List.mem_cons_self x t
          · exact List.mem_cons_of_mem c
              (ih a (hs ▸ List.mem_cons_self a r) x hx)
        · exact List.mem_cons_of_mem c
            (ih l (hs ▸ List.mem_cons_of_mem a hl) x hx)

theorem qparse_wf {qs : List Char} (hq : '#' ∉ qs) :
    ∀ p ∈ qparse qs, wfQPair p := by
  intro p hp
  rw [qparse] at hp
  simp only [List.mem_map, List.mem_filter] at hp
  obtain ⟨piece, ⟨hmem, _⟩, rfl⟩ := hp
  have hamp : '&' ∉ piece := splitAmp_no_amp piece hmem
  have hsub : ∀ c ∈ piece, c ∈ qs := splitAmp_subset piece hmem
  have hname : ∀ c ∈ (splitEq piece).1, c ∈ piece := by
    intro c hc
    exact (List.takeWhile_sublist notEqCh).subset hc
  have hval : ∀ c ∈ (splitEq piece).2, c ∈ piece := by
    intro c hc
    exact (List.dropWhile_sublist notEqCh).subset ((List.tail_sublist _).subset hc)
  refine ⟨fun h => hamp (hname _ h), fun h => hamp (hval _ h), ?_,
    fun h => hq (hsub _ (hname _ h)), fun h => hq (hsub _ (hval _ h))⟩
  intro h
  have := List.mem_takeWhile_imp h
  simp [notEqCh] at this

theorem qserialize_chars {q : List (List Char × List Char)} {c : Char}
    (hc : c ∈ qserialize q) :
    (∃ p ∈ q, c ∈ p.1 ∨ c ∈ p.2) ∨ c = '=' ∨ c = '&' := by
  induction q with
  | nil => simp [qserialize] at hc
  | cons p rest ih =>
    cases rest with
    | nil =>
      rcases List.mem_append.mp hc with h | h
      · exact Or.inl ⟨p, by simp, Or.inl h⟩
      · rcases List.mem_cons.mp h with rfl | h
        · exact Or.inr (Or.inl rfl)
        · exact Or.inl ⟨p, by simp, Or.inr h⟩
    | cons b r =>
      rw [qserialize_cons (by simp)] at hc
      rcases List.mem_append.mp hc with h | h
      · rcases List.mem_append.mp h with h | h
        · exact Or.inl ⟨p, by simp, Or.inl h⟩
        · rcases List.mem_cons.mp h with rfl | h
          · exact Or.inr (Or.inl rfl)
          · exact Or.inl ⟨p, by simp, Or.inr h⟩
      · rcases List.mem_cons.mp h with rfl | h
        · exact Or.inr (Or.inr rfl)
        · rcases ih h with ⟨p2, hp2, hm⟩ | h
          · exact Or.inl ⟨p2, List.mem_cons_of_mem p hp2, hm⟩
          · exact Or.inr h

theorem qserialize_no_hash {q : List (List Char × List Char)}
    (h : ∀ p ∈ q, wfQPair p) : '#' ∉ qserialize q := by
  intro hc
  rcases qserialize_chars hc with ⟨p, hp, hm⟩ | he | he
  · obtain ⟨_, _, _, h4, h5⟩ := h p hp
    rcases hm with hm | hm
    · exact h4 hm
    · exact h5 hm
  · exact absurd he (by decide)
  · exact absurd he (by decide)

/-! ## Well-formedness of parsed URLs and the parse/serialize round trip. -/

/-- Invariants of every `UrlParts` produced by the model parser. -/
structure WfUrl (m : UrlParts) : Prop where
  scheme_ne : m.scheme ≠ []
  scheme_chars : ∀ c ∈ m.scheme, schemeChar c = true
  scheme_alpha : ∃ c0 t, m.scheme = c0 :: t ∧ c0.isAlpha = true
  scheme_lc : m.scheme.map lc = m.scheme
  host_ne : m.host ≠ []
  host_chars : ∀ c ∈ m.host, hostChar c = true
  host_lc : m.host.map lc = m.host
  path_slash : ∃ t, m.path = '/' :: t
  path_chars : ∀ c ∈ m.path, pathChar c = true
  query_wf : ∀ p ∈ m.query, wfQPair p

theorem qparse_takeWhile_notHash_wf (r : List Char) :
    ∀ p ∈ qparse (r.takeWhile notHash), wfQPair p := by
  apply qparse_wf
  intro hc
  have := List.mem_takeWhile_imp hc
  simp [notHash] at this

theorem parseQF_wf (r : List Char) : ∀ p ∈ (parseQF r).1, wfQPair p := by
  cases r with
  | nil => simp [parseQF]
  | cons c t =>
    rw [parseQF]
    split_ifs with h1 h2
    · exact qparse_takeWhile_notHash_wf t
    · simp
    · simp

theorem mem_map_lc_takeWhile {p : Char → Bool} {cs : List Char} {c : Char}
    (h : c ∈ (cs.takeWhile p).map lc) : ∃ a, p a = true ∧ c = lc a := by
  obtain ⟨a, ha, rfl⟩ := List.mem_map.mp h
  exact ⟨a, List.mem_takeWhile_imp ha, rfl⟩

theorem pathChars_slash_singleton : ∀ c ∈ (['/'] : List Char), pathChar c = true := by
  decide

theorem parse_wf {cs : List Char} {m : UrlParts} (h : parseUrlL cs = some m) :
    WfUrl m := by
  rw [parseUrlL] at h
  split at h
  · exact absurd h (by simp)
  · next c0 sch' heq =>
    split_ifs at h with halpha
    split at h
    · next r1 heq2 =>
      dsimp only at h
      split_ifs at h with hsep hhost
      have hschemeNe : ((c0 :: sch').map lc) ≠ [] := by simp
      have hschemeChars : ∀ c ∈ (c0 :: sch').map lc, schemeChar c = true := by
        intro c hc
        obtain ⟨a, ha, rfl⟩ := List.mem_map.mp hc
        exact schemeChar_lc (List.mem_takeWhile_imp (heq ▸ ha))
      have hschemeAlpha : ∃ d t, (c0 :: sch').map lc = d :: t ∧ d.isAlpha = true :=
        ⟨lc c0, sch'.map lc, by simp, isAlpha_lc halpha⟩
      have hschemeLc : ((c0 :: sch').map lc).map lc = (c0 :: sch').map lc :=
        map_lc_idem _
      have hhostNe : (r1.takeWhile hostChar).map lc ≠ [] := by
        simpa using hhost
      have hhostChars : ∀ c ∈ (r1.takeWhile hostChar).map lc, hostChar c = true := by
        intro c hc
        obtain ⟨a, ha, rfl⟩ := mem_map_lc_takeWhile hc
        exact hostChar_lc ha
      have hhostLc : ((r1.takeWhile hostChar).map lc).map lc =
          (r1.takeWhile hostChar).map lc := map_lc_idem _
      split at h
      · rw [Option.some.injEq] at h
        subst h
        exact ⟨hschemeNe, hschemeChars, hschemeAlpha, hschemeLc, hhostNe,
          hhostChars, hhostLc, ⟨[], rfl⟩, pathChars_slash_singleton, by simp⟩
      · next c2 w heq3 =>
        split_ifs at h with hslash hqf
        · rw [Option.some.injEq] at h
          subst h
          refine ⟨hschemeNe, hschemeChars, hschemeAlpha, hschemeLc, hhostNe,
            hhostChars, hhostLc, ?_, ?_, parseQF_wf _⟩
          · rw [heq3, hslash, List.takeWhile_cons, if_pos (by decide)]
            exact ⟨_, rfl⟩
          · intro c hc
            exact List.mem_takeWhile_imp hc
        · rw [Option.some.injEq] at h
          subst h
          exact ⟨hschemeNe, hschemeChars, hschemeAlpha, hschemeLc, hhostNe,
            hhostChars, hhostLc, ⟨[], rfl⟩, pathChars_slash_singleton, parseQF_wf _⟩
    · exact absurd h (by simp)

theorem takeWhile_scheme_shape {sch rest : List Char}
    (hs : ∀ c ∈ sch, schemeChar c = true) :
    (sch ++ (':' :: rest)).takeWhile schemeChar = sch ∧
      (sch ++ (':' :: rest)).dropWhile schemeChar = ':' :: rest := by
  constructor
  · rw [List.takeWhile_append_of_pos hs]
    simp [List.takeWhile_cons, schemeChar]
  · rw [List.dropWhile_append_of_pos hs]
    simp [List.dropWhile_cons, schemeChar]

theorem takeWhile_host_shape {hst rest : List Char}
    (hs : ∀ c ∈ hst, hostChar c = true) :
    (hst ++ ('/' :: rest)).takeWhile hostChar = hst ∧
      (hst ++ ('/' :: rest)).dropWhile hostChar = '/' :: rest := by
  constructor
  · rw [List.takeWhile_append_of_pos hs]
    simp [List.takeWhile_cons, hostChar]
  · rw [List.dropWhile_append_of_pos hs]
    simp [List.dropWhile_cons, hostChar]

/-- Round trip for `origin + pathname`: re-parsing the query-less,
fragment-less serialization recovers the same scheme, host and path. -/
theorem parse_serializeBase {m : UrlParts} (hm : WfUrl m) :
    parseUrlL (serializeBase m) = some ⟨m.scheme, m.host, m.path, [], none⟩ := by
  obtain ⟨msch, mhost, mpath, mq, mf⟩ := m
  obtain ⟨pt, hpath⟩ := hm.path_slash
  obtain ⟨c0, st, hsch, halpha⟩ := hm.scheme_alpha
  simp only at hpath hsch
  subst hpath hsch
  have hshape : serializeBase ⟨c0 :: st, mhost, '/' :: pt, mq, mf⟩ =
      (c0 :: st) ++ (':' :: ('/' :: ('/' :: (mhost ++ ('/' :: pt))))) := by
    simp [serializeBase, sepPat]
  have hs1 := @takeWhile_scheme_shape (c0 :: st)
    ('/' :: ('/' :: (mhost ++ ('/' :: pt)))) hm.scheme_chars
  have hs2 := @takeWhile_host_shape mhost pt hm.host_chars
  have htwp : ('/' :: pt).takeWhile pathChar = '/' :: pt :=
    List.takeWhile_eq_self_iff.mpr hm.path_chars
  have hdwp : ('/' :: pt).dropWhile pathChar = [] :=
    List.dropWhile_eq_nil_iff.mpr fun c hc => hm.path_chars c hc
  simp only at hs1 hs2
  rw [parseUrlL, hshape, hs1.1, hs1.2]
  dsimp only
  rw [if_pos halpha,
    if_pos (⟨rfl, rfl, rfl⟩ : (':' : Char) = ':' ∧ ('/' : Char) = '/' ∧ ('/' : Char) = '/'),
    hs2.1, hs2.2]
  try dsimp only
  rw [if_neg hm.host_ne]
  try dsimp only
  rw [if_pos (rfl : ('/' : Char) = '/'), htwp, hdwp]
  have e1 : List.map lc (c0 :: st) = c0 :: st := hm.scheme_lc
  have e2 : List.map lc mhost = mhost := hm.host_lc
  rw [e1, e2]
  rfl

theorem fragOf_cons {c : Char} {f : List Char} :
    fragOf (c :: f) = if c = '#' then some f else none := rfl

/-- Round trip for `toString()`: re-parsing the full serialization with a
well-formed query `q` recovers scheme, host, path, `q` and fragment. -/
theorem parse_serializeFull {m : UrlParts} {q : List (List Char × List Char)}
    (hm : WfUrl m) (hq : ∀ p ∈ q, wfQPair p) :
    parseUrlL (serializeFull m q) = some ⟨m.scheme, m.host, m.path, q, m.frag⟩ := by
  obtain ⟨msch, mhost, mpath, mq, mf⟩ := m
  obtain ⟨pt, hpath⟩ := hm.path_slash
  obtain ⟨c0, st, hsch, halpha⟩ := hm.scheme_alpha
  simp only at hpath hsch
  subst hpath hsch
  have hnb : ∀ c ∈ qserialize q, notHash c = true := by
    intro c hc
    simp only [notHash, decide_eq_true_eq]
    intro he
    exact qserialize_no_hash hq (he ▸ hc)
  have hqf : (List.takeWhile notHash (qserialize q ++ fragPart mf),
      fragOf (List.dropWhile notHash (qserialize q ++ fragPart mf))) =
      (qserialize q, mf) := by
    cases mf with
    | none =>
      rw [fragPart, List.append_nil, List.takeWhile_eq_self_iff.mpr hnb,
        List.dropWhile_eq_nil_iff.mpr fun c hc => hnb c hc]
      rfl
    | some f =>
      rw [fragPart, List.takeWhile_append_of_pos hnb,
        List.dropWhile_append_of_pos hnb,
        show List.takeWhile notHash ('#' :: f) = [] from by
          simp [List.takeWhile_cons, notHash],
        show List.dropWhile notHash ('#' :: f) = '#' :: f from by
          simp [List.dropWhile_cons, notHash],
        List.append_nil, fragOf_cons, if_pos rfl]
  have hshape : serializeFull ⟨c0 :: st, mhost, '/' :: pt, mq, mf⟩ q =
      (c0 :: st) ++ (':' :: ('/' :: ('/' :: (mhost ++ ('/' :: (pt ++ ('?' ::
        (qserialize q ++ fragPart mf)))))))) := by
    simp [serializeFull, serializeBase, sepPat]
  have hs1 := @takeWhile_scheme_shape (c0 :: st)
    ('/' :: ('/' :: (mhost ++ ('/' :: (pt ++ ('?' ::
      (qserialize q ++ fragPart mf)))))))
    hm.scheme_chars
  have hs2 := @takeWhile_host_shape mhost
    (pt ++ ('?' :: (qserialize q ++ fragPart mf)))
    hm.host_chars
  have hpc : ∀ c ∈ ('/' :: pt : List Char), pathChar c = true := hm.path_chars
  have htwp : (('/' :: pt) ++ ('?' :: (qserialize q ++ fragPart mf))).takeWhile
      pathChar = '/' :: pt := by
    rw [List.takeWhile_append_of_pos hpc]
    simp [List.takeWhile_cons, pathChar]
  have hdwp : (('/' :: pt) ++ ('?' :: (qserialize q ++ fragPart mf))).dropWhile
      pathChar = '?' :: (qserialize q ++ fragPart mf) := by
    rw [List.dropWhile_append_of_pos hpc]
    simp [List.dropWhile_cons, pathChar]
  simp only at hs1 hs2
  rw [parseUrlL, hshape, hs1.1, hs1.2]
  dsimp only
  rw [if_pos halpha,
    if_pos (⟨rfl, rfl, rfl⟩ : (':' : Char) = ':' ∧ ('/' : Char) = '/' ∧ ('/' : Char) = '/')]
  have hs2a := hs2.1
  have hs2b := hs2.2
  simp only [List.cons_append, List.append_assoc] at hs2a hs2b htwp hdwp ⊢
  rw [hs2a, hs2b]
  try dsimp only
  rw [if_neg hm.host_ne]
  try dsimp only
  rw [if_pos (rfl : ('/' : Char) = '/'), htwp, hdwp, parseQF, if_pos rfl]
  have e1 : List.map lc (c0 :: st) = c0 :: st := hm.scheme_lc
  have e2 : List.map lc mhost = mhost := hm.host_lc
  rw [Prod.mk.injEq] at hqf
  rw [e1, e2, hqf.1, hqf.2, qparse_qserialize hq]

/-! ## Fixed points of `normalizeUrl`. -/

theorem mkTwitter_ne_nil (u d : List Char) : mkTwitter u d ≠ [] := by
  simp [mkTwitter]

theorem serializeBase_ne_nil {m : UrlParts} (hm : WfUrl m) : serializeBase m ≠ [] := by
  obtain ⟨c0, t, hsch, _⟩ := hm.scheme_alpha
  simp [serializeBase, hsch]

theorem serializeFull_ne_nil {m : UrlParts} (hm : WfUrl m)
    (q : List (List Char × List Char)) : serializeFull m q ≠ [] := by
  obtain ⟨c0, t, hsch, _⟩ := hm.scheme_alpha
  simp [serializeFull, serializeBase, hsch]

theorem norm_eq_twitter {cs u d : List Char} (hne : cs ≠ [])
    (h : twitterMatch cs = some (u, d)) : normalizeUrlL cs = mkTwitter u d := by
  rw [normalizeUrlL, if_neg hne, h]

theorem norm_eq_id {cs : List Char} (htm : twitterMatch cs = none)
    (hp : parseUrlL cs = none) : normalizeUrlL cs = cs := by
  by_cases hne : cs = []
  · subst hne; rfl
  · rw [normalizeUrlL, if_neg hne, htm, hp]

theorem norm_eq_base {cs : List Char} {m : UrlParts} (hne : cs ≠ [])
    (htm : twitterMatch cs = none) (hp : parseUrlL cs = some m)
    (hq : m.query.filter (fun p => decide (p.1 ∉ trackingNames)) = []) :
    normalizeUrlL cs = serializeBase m := by
  rw [normalizeUrlL, if_neg hne, htm, hp]
  dsimp only
  rw [if_pos hq]

theorem norm_eq_full {cs : List Char} {m : UrlParts} (hne : cs ≠ [])
    (htm : twitterMatch cs = none) (hp : parseUrlL cs = some m)
    {q : List (List Char × List Char)}
    (hqdef : m.query.filter (fun p => decide (p.1 ∉ trackingNames)) = q)
    (hq : q ≠ []) :
    normalizeUrlL cs = serializeFull m q := by
  rw [normalizeUrlL, if_neg hne, htm, hp]
  dsimp only
  rw [hqdef, if_neg hq]

theorem norm_mk {u d : List Char} (hu : u ≠ []) (hu2 : ∀ c ∈ u, c ≠ '/')
    (hd : d ≠ []) (hd2 : ∀ c ∈ d, c.isDigit = true) :
    normalizeUrlL (mkTwitter u d) = mkTwitter u d :=
  norm_eq_twitter (mkTwitter_ne_nil u d) (twitterMatch_mk hu hu2 hd hd2)

/-- Every output of `normalizeUrlL ∘ normalizeUrlL` is a fixed point of
`normalizeUrlL`. -/
theorem normalizeUrlL_fix2 (cs : List Char) :
    normalizeUrlL (normalizeUrlL (normalizeUrlL cs)) = normalizeUrlL (normalizeUrlL cs) := by
  by_cases h0 : cs = []
  · subst h0; rfl
  · cases htm : twitterMatch cs with
    | some ud =>
      obtain ⟨u, d⟩ := ud
      obtain ⟨hu, hu2, hd, hd2⟩ := twitterMatch_props htm
      have h1 := norm_eq_twitter h0 htm
      have h2 := norm_mk hu hu2 hd hd2
      rw [h1, h2, h2]
    | none =>
      cases hp : parseUrlL cs with
      | none =>
        have h1 := norm_eq_id htm hp
        rw [h1, h1, h1]
      | some m =>
        have hwf := parse_wf hp
        by_cases hq0 : m.query.filter (fun p => decide (p.1 ∉ trackingNames)) = []
        · have h1 := norm_eq_base h0 htm hp hq0
          rw [h1]
          have hbne := serializeBase_ne_nil hwf
          cases htm2 : twitterMatch (serializeBase m) with
          | some ud2 =>
            obtain ⟨u2, d2⟩ := ud2
            obtain ⟨hu, hu2, hd, hd2⟩ := twitterMatch_props htm2
            rw [norm_eq_twitter hbne htm2]
            exact norm_mk hu hu2 hd hd2
          | none =>
            have hp2 := parse_serializeBase hwf
            have hfix0 := norm_eq_base hbne htm2 hp2 rfl
            have hfix : normalizeUrlL (serializeBase m) = serializeBase m := hfix0
            rw [hfix, hfix]
        · have hqq : (m.query.filter (fun p => decide (p.1 ∉ trackingNames))).filter
              (fun p => decide (p.1 ∉ trackingNames)) =
              m.query.filter (fun p => decide (p.1 ∉ trackingNames)) :=
            List.filter_eq_self.mpr fun a ha => (List.mem_filter.mp ha).2
          have h1 := norm_eq_full h0 htm hp rfl hq0
          rw [h1]
          have hfne := serializeFull_ne_nil hwf
            (m.query.filter (fun p => decide (p.1 ∉ trackingNames)))
          cases htm2 : twitterMatch (serializeFull m
              (m.query.filter (fun p => decide (p.1 ∉ trackingNames)))) with
          | some ud2 =>
            obtain ⟨u2, d2⟩ := ud2
            obtain ⟨hu, hu2, hd, hd2⟩ := twitterMatch_props htm2
            rw [norm_eq_twitter hfne htm2]
            exact norm_mk hu hu2 hd hd2
          | none =>
            have hqwf : ∀ p ∈ m.query.filter (fun p => decide (p.1 ∉ trackingNames)),
                wfQPair p := fun p hpmem => hwf.query_wf p (List.mem_filter.mp hpmem).1
            have hp2 := parse_serializeFull hwf hqwf
            have hfix0 := norm_eq_full hfne htm2 hp2 hqq hq0
            have hfix : normalizeUrlL (serializeFull m
                (m.query.filter (fun p => decide (p.1 ∉ trackingNames)))) =
                serializeFull m (m.query.filter (fun p => decide (p.1 ∉ trackingNames))) :=
              hfix0
            rw [hfix, hfix]

theorem normalizeUrl_data (s : String) : (normalizeUrl s).data = normalizeUrlL s.data :=
  rfl

/-- C6 (counterexample): `normalizeUrl` is NOT idempotent.  For the input
`http://x.com/?t=a/b&x=1#/status/5` the social-post regex does not match
(the first `/` after the host is followed by `b&x=1#...`, not `status/`),
so the URL branch deletes the tracking parameter `t`, producing
`http://x.com/?x=1#/status/5`; on that output the regex DOES match (with
user capture `?x=1#`, taken from query and fragment), so a second
application rewrites it to `https://x.com/?x=1#/status/5`. -/
theorem normalizeUrl_idempotence_counterexample :
    normalizeUrl (normalizeUrl "http://x.com/?t=a/b&x=1#/status/5") ≠
      normalizeUrl "http://x.com/?t=a/b&x=1#/status/5" := by
  have e1 : normalizeUrl "http://x.com/?t=a/b&x=1#/status/5" =
      "http://x.com/?x=1#/status/5" := by decide
  have e2 : normalizeUrl "http://x.com/?x=1#/status/5" =
      "https://x.com/?x=1#/status/5" := by decide
  rw [e1, e2]
  decide

/-- C6 (amended): `normalizeUrl` is idempotent from the second application
onwards: `normalizeUrl ∘ normalizeUrl` is idempotent, i.e. every output of
a double application is a fixed point.  (Plain idempotence fails exactly
when deleting a tracking parameter creates a fresh social-post-pattern
match out of query/fragment text, as in the counterexample.) -/
theorem normalizeUrl_norm_norm_idempotent (u : String) :
    normalizeUrl (normalizeUrl (normalizeUrl u)) = normalizeUrl (normalizeUrl u) := by
  apply String.ext
  simp only [normalizeUrl_data]
  exact normalizeUrlL_fix2 u.data

/-- C7: every URL matching the social-post pattern
`^https?://(x.com|twitter.com)/{user}/status/{digits}` (case-insensitive,
stated here as an explicit decomposition mirroring the regex: scheme
`http`/`https` up to case, host alias up to case, a non-empty slash-free
user segment, `/status/` up to case, a non-empty maximal digit run, and an
arbitrary remainder) is normalized to the canonical
`https://x.com/{user}/status/{id}` — so host aliases and query/fragment
variants of a post all collapse to one canonical string. -/
theorem normalizeUrl_social_collapse (u : String)
    (sch hst user st id rest : List Char)
    (hu : u.data = sch ++ (sepPat ++ (hst ++ ('/' :: (user ++ (st ++ (id ++ rest)))))))
    (hsch : sch.map lc = httpPat ∨ sch.map lc = httpPat ++ ['s'])
    (hhst : hst.map lc = xcomPat ∨ hst.map lc = twitterPat)
    (huser : user ≠ []) (huser2 : ∀ c ∈ user, c ≠ '/')
    (hst2 : st.map lc = statusPat)
    (hid : id ≠ []) (hid2 : ∀ c ∈ id, c.isDigit = true)
    (hrest : rest = [] ∨ ∃ c t, rest = c :: t ∧ c.isDigit = false) :
    normalizeUrl u = ⟨mkTwitter user id⟩ := by
  apply String.ext
  rw [normalizeUrl_data, hu]
  have hne : sch ++ (sepPat ++ (hst ++ ('/' :: (user ++ (st ++ (id ++ rest)))))) ≠ [] := by
    simp [sepPat]
  exact norm_eq_twitter hne
    (twitterMatch_of_parts hsch hhst huser huser2 hst2 hid hid2 hrest)

/-- Witness for C7: a `twitter.com` URL with a tracking parameter and an
upper-case `x.com` URL with a fragment both collapse to the same canonical
social-post string. -/
theorem normalizeUrl_social_collapse_witness :
    normalizeUrl "https://twitter.com/Alice/status/123?t=9" =
      "https://x.com/Alice/status/123" ∧
    normalizeUrl "HTTP://X.com/Alice/Status/123#f" =
      "https://x.com/Alice/status/123" := by
  constructor
  · have h := normalizeUrl_social_collapse "https://twitter.com/Alice/status/123?t=9"
      "https".data "twitter.com".data "Alice".data "/status/".data "123".data "?t=9".data
      (by decide) (Or.inr (by decide)) (Or.inr (by decide)) (by decide) (by decide)
      (by decide) (by decide) (by decide)
      (Or.inr ⟨'?', "t=9".data, by decide, by decide⟩)
    exact h.trans (by decide)
  · have h := normalizeUrl_social_collapse "HTTP://X.com/Alice/Status/123#f"
      "HTTP".data "X.com".data "Alice".data "/Status/".data "123".data "#f".data
      (by decide) (Or.inl (by decide)) (Or.inl (by decide)) (by decide) (by decide)
      (by decide) (by decide) (by decide)
      (Or.inr ⟨'#', "f".data, by decide, by decide⟩)
    exact h.trans (by decide)

/-! ## `JSON.stringify` / `JSON.parse` for arrays of strings, as used for
the `etiquetas` and `urls` text columns of the store (dbService.ts lines
327-329, 352, 429-430).  `stringify` escapes quote and backslash; `parse`
accepts exactly string arrays and fails on any other input, modelling the
`SyntaxError` thrown by `JSON.parse` on malformed text. -/

def escC (c : Char) : List Char :=
  if c = '"' ∨ c = '\\' then ['\\', c] else [c]

def escapeStr (s : List Char) : List Char :=
  s.foldr (fun c acc => escC c ++ acc) []

def encItems : List (List Char) → List Char
  | [] => []
  | [s] => '"' :: (escapeStr s ++ ['"'])
  | s :: rest => '"' :: (escapeStr s ++ ('"' :: ',' :: encItems rest))

def jsonStringifyL (l : List (List Char)) : List Char :=
  '[' :: (encItems l ++ [']'])

/-- Decode one escape character of a JSON string literal. -/
def pesc (e : Char) : Option Char :=
  if e = '"' ∨ e = '\\' ∨ e = '/' then some e
  else if e = 'n' then some '\n'
  else if e = 't' then some '\t'
  else if e = 'r' then some '\r'
  else none

/-- Parse the body of a JSON string (after the opening quote), returning
the decoded content and the remainder after the closing quote. -/
def pstr : List Char → Option (List Char × List Char)
  | [] => none
  | c :: rest =>
    if c = '"' then some ([], rest)
    else if c = '\\' then
      match rest with
      | [] => none
      | e :: rest2 =>
        (pesc e).bind fun u => (pstr rest2).map fun p => (u :: p.1, p.2)
    else (pstr rest).map fun p => (c :: p.1, p.2)

/-- Parse one or more comma-separated JSON strings followed by `]`. -/
def pitems : Nat → List Char → Option (List (List Char) × List Char)
  | 0, _ => none
  | fuel + 1, cs =>
    match cs with
    | [] => none
    | c :: cs2 =>
      if c = '"' then
        (pstr cs2).bind fun p =>
          match p.2 with
          | [] => none
          | d :: rest2 =>
            if d = ',' then (pitems fuel rest2).map fun q => (p.1 :: q.1, q.2)
            else if d = ']' then some ([p.1], rest2)
            else none
      else none

def jsonParseL (cs : List Char) : Option (List (List Char)) :=
  match cs with
  | [] => none
  | c :: rest =>
    if c = '[' then
      match rest with
      | [] => none
      | d :: rest2 =>
        if d = ']' then (if rest2 = [] then some [] else none)
        else
          (pitems rest.length rest).bind fun q =>
            if q.2 = [] then some q.1 else none
    else none

def jsonStringify (l : List String) : String :=
  ⟨jsonStringifyL (l.map String.data)⟩

def jsonParse (s : String) : Option (List String) :=
  (jsonParseL s.data).map (List.map String.mk)


theorem pstr_cons_quote (rest : List Char) :
    pstr ('"' :: rest) = some ([], rest) := by
  rw [pstr.eq_def]
  rfl

theorem pstr_cons_esc (e : Char) (rest2 : List Char) :
    pstr ('\\' :: e :: rest2) =
      (pesc e).bind fun u => (pstr rest2).map fun p => (u :: p.1, p.2) := by
  rw [pstr.eq_def]
  rfl

theorem pstr_cons_plain (c : Char) (h1 : ¬ c = '"') (h2 : ¬ c = '\\')
    (rest : List Char) :
    pstr (c :: rest) = (pstr rest).map fun p => (c :: p.1, p.2) := by
  rw [pstr.eq_def]
  dsimp only
  rw [if_neg h1, if_neg h2]

theorem pstr_round (s rest : List Char) :
    pstr (escapeStr s ++ '"' :: rest) = some (s, rest) := by
  induction s with
  | nil =>
    show pstr ('"' :: rest) = _
    exact pstr_cons_quote rest
  | cons c s2 ih =>
    show pstr ((escC c ++ escapeStr s2) ++ '"' :: rest) = _
    rw [escC]
    split_ifs with hc
    · simp only [List.cons_append, List.nil_append]
      rw [pstr_cons_esc, pesc,
        if_pos (hc.elim (fun h => Or.inl h) (fun h => Or.inr (Or.inl h))),
        Option.some_bind, ih, Option.map_some']
    · push_neg at hc
      simp only [List.cons_append, List.nil_append]
      rw [pstr_cons_plain c hc.1 hc.2, ih, Option.map_some']

theorem pitems_succ_quote (fuel : Nat) (cs2 : List Char) :
    pitems (fuel + 1) ('"' :: cs2) =
      (pstr cs2).bind fun p =>
        match p.2 with
        | [] => none
        | d :: rest2 =>
          if d = ',' then (pitems fuel rest2).map fun q => (p.1 :: q.1, q.2)
          else if d = ']' then some ([p.1], rest2)
          else none := by
  rw [pitems.eq_def]
  rfl

theorem pitems_round (l : List (List Char)) :
    ∀ fuel, l.length ≤ fuel → l ≠ [] → ∀ rest,
      pitems fuel (encItems l ++ ']' :: rest) = some (l, rest) := by
  induction l with
  | nil => intro _ _ h; exact absurd rfl h
  | cons s r ih =>
    intro fuel hf _ rest
    have h1 : 0 < fuel := Nat.lt_of_lt_of_le (by simp) hf
    obtain ⟨f, rfl⟩ : ∃ f, fuel = f + 1 := ⟨fuel - 1, by omega⟩
    cases r with
    | nil =>
      show pitems (f + 1) (('"' :: (escapeStr s ++ ['"'])) ++ ']' :: rest) = _
      simp only [List.cons_append, List.append_assoc, List.singleton_append]
      rw [pitems_succ_quote, pstr_round, Option.some_bind]
      rfl
    | cons t r2 =>
      show pitems (f + 1)
        (('"' :: (escapeStr s ++ ('"' :: ',' :: encItems (t :: r2)))) ++
          ']' :: rest) = _
      simp only [List.cons_append, List.append_assoc]
      rw [pitems_succ_quote, pstr_round, Option.some_bind]
      dsimp only
      rw [if_pos rfl, ih f (by simp only [List.length_cons] at hf ⊢; omega)
        (by simp) rest, Option.map_some']

theorem jsonParseL_bracket_cons (d : Char) (h : ¬ d = ']')
    (rest2 : List Char) :
    jsonParseL ('[' :: d :: rest2) =
      (pitems (d :: rest2).length (d :: rest2)).bind fun q =>
        if q.2 = [] then some q.1 else none := by
  rw [jsonParseL.eq_def]
  dsimp only
  rw [if_pos rfl, if_neg h]

theorem length_le_encItems (l : List (List Char)) :
    l.length ≤ (encItems l).length := by
  induction l with
  | nil => simp [encItems]
  | cons s r ih =>
    cases r with
    | nil =>
      simp [encItems]
    | cons t r2 =>
      simp only [encItems, List.length_cons, List.length_append] at ih ⊢
      omega

theorem encItems_cons_head (s : List Char) (r : List (List Char)) :
    ∃ X, encItems (s :: r) = '"' :: X := by
  cases r with
  | nil => exact ⟨_, rfl⟩
  | cons t r2 => exact ⟨_, rfl⟩

theorem jsonParseL_stringify (l : List (List Char)) :
    jsonParseL (jsonStringifyL l) = some l := by
  cases l with
  | nil => rfl
  | cons s r =>
    obtain ⟨X, hX⟩ := encItems_cons_head s r
    have hq : ¬ ('"' : Char) = ']' := by decide
    have hcalc : jsonStringifyL (s :: r) = '[' :: '"' :: (X ++ [']']) := by
      rw [jsonStringifyL, hX]
      rfl
    rw [hcalc, jsonParseL_bracket_cons '"' hq (X ++ [']'])]
    have hback : '"' :: (X ++ [']']) = encItems (s :: r) ++ ']' :: [] := by
      rw [hX]
      rfl
    rw [hback]
    rw [pitems_round (s :: r) (encItems (s :: r) ++ ']' :: []).length
      (by
        have := length_le_encItems (s :: r)
        simp only [List.length_append, List.length_cons, List.length_nil]
          at this ⊢
        omega)
      (by simp) []]
    rfl

theorem jsonParse_stringify (l : List String) :
    jsonParse (jsonStringify l) = some l := by
  show (jsonParseL (jsonStringify l).data).map (List.map String.mk) = some l
  have hd : (jsonStringify l).data = jsonStringifyL (l.map String.data) := rfl
  rw [hd, jsonParseL_stringify, Option.map_some', List.map_map,
    show String.mk ∘ String.data = id from rfl, List.map_id]

theorem normalizeUrlL_ne_nil {cs : List Char} (hne : cs ≠ []) :
    normalizeUrlL cs ≠ [] := by
  rw [normalizeUrlL, if_neg hne]
  cases htm : twitterMatch cs with
  | some p =>
    obtain ⟨u, d⟩ := p
    exact mkTwitter_ne_nil u d
  | none =>
    cases hp : parseUrlL cs with
    | none => exact hne
    | some m =>
      dsimp only
      split_ifs with hq
      · exact serializeBase_ne_nil (parse_wf hp)
      · exact serializeFull_ne_nil (parse_wf hp) _

theorem normalizeUrl_empty_iff (s : String) : normalizeUrl s = "" ↔ s = "" := by
  constructor
  · intro h
    by_contra hne
    have hd : s.data ≠ [] := fun hdd => hne (String.ext hdd)
    have : (normalizeUrl s).data = [] := by rw [h]
    exact normalizeUrlL_ne_nil hd this
  · intro h
    subst h
    rfl

/-! ## The record store (`dbService.ts`).

A stored row of the `emails` table.  `etiquetas` and `urls` hold the raw
JSON text exactly as inserted; `id` is the SQLite AUTOINCREMENT key.
The in-memory database and its durable IndexedDB snapshot are modelled as
the two row lists of `DBState`; `saveDBToStorage` copies the former into
the latter.  JS `Set`s are modelled as lists queried only through
membership, and a thrown JS `Error` is modelled as a `some message`
second component of the result. -/

structure StoreRow where
  id : Nat
  fileName : String
  fechaEnvio : String
  tematica : String
  etiquetas : String
  contenido : String
  urls : String
  deriving Repr, DecidableEq

structure DBState where
  rows : List StoreRow
  durable : List StoreRow
  deriving Repr, DecidableEq

def emptyDB : DBState := ⟨[], []⟩

/-- The `AnalyzedEmail` objects handed to `saveToDb`.  `errorMessage` is
optional in the source type; `id` and `status` are carried but never read
by the store. -/
structure AnalyzedEmail where
  id : String
  fileName : String
  fechaEnvio : String
  tematica : String
  etiquetas : List String
  contenido : String
  urls : List String
  status : String
  errorMessage : Option String
  deriving Repr, DecidableEq

/-- `normalizeUrls` (dbService.ts 60-64): map and drop empty results. -/
def normalizeUrls (urls : List String) : List String :=
  (urls.map normalizeUrl).filter fun u => decide (u ≠ "")

/-- `JSON.parse(row[0] || "[]")`, `try { ... } catch ignore` plus the
`Array.isArray` guard (dbService.ts 351-360): decode a row's `urls`
column, yielding `[]` on empty text, malformed JSON, or a non-array. -/
def urlsOfRow (r : StoreRow) : List String :=
  match jsonParse (if r.urls = "" then "[]" else r.urls) with
  | some l => l
  | none => []

/-- `getExistingFileNames` (dbService.ts 522-536): the truthy `fileName`
column values. -/
def getExistingFileNames (db : DBState) : List String :=
  db.rows.filterMap fun r => if r.fileName = "" then none else some r.fileName

/-- SQLite AUTOINCREMENT key for the next insert (no deletes modelled). -/
def nextIdOf (rows : List StoreRow) : Nat :=
  (rows.foldr (fun r m => max r.id m) 0) + 1

/-- The row built by the `stmt.run` call (dbService.ts 421-443),
including the `|| ''` / `|| 'Sin clasificar'` defaults. -/
def mkRow (n : Nat) (e : AnalyzedEmail) : StoreRow :=
  { id := n
    fileName := e.fileName
    fechaEnvio := e.fechaEnvio
    tematica := if e.tematica = "" then "Sin clasificar" else e.tematica
    etiquetas := jsonStringify e.etiquetas
    contenido := e.contenido
    urls := jsonStringify e.urls }

/-- The mutable locals of the `emails.forEach` body in `saveToDb`. -/
structure SaveState where
  fns : List String
  us : List String
  nus : List String
  rows : List StoreRow
  added : Nat
  errors : List String

/-- The URL-duplicate loop of `saveToDb` (dbService.ts 389-404): iterate
over the indices of `e.urls`, reading `normalizedUrls[i]` from the
separately filtered array — `Set.has(undefined)` is `false` when the
index falls off its end, modelled by the `Option` match. -/
def urlDupCheck (st : SaveState) (e : AnalyzedEmail) : Bool :=
  let normalizedUrls := normalizeUrls e.urls
  (List.range e.urls.length).any fun i =>
    st.us.contains (e.urls.getD i "") ||
      match normalizedUrls.get? i with
      | some nu => st.nus.contains nu
      | none => false

/-- One `emails.forEach` step of `saveToDb` (dbService.ts 376-449):
validation, URL-first dedup, fileName dedup second, then insert and
incremental update of the in-memory dedup sets. -/
def saveStep (idx : Nat) (e : AnalyzedEmail) (st : SaveState) : SaveState :=
  if e.fileName = "" then
    { st with errors :=
        st.errors ++ ["Email " ++ toString (idx + 1) ++ ": fileName faltante"] }
  else
    let isDuplicate := urlDupCheck st e || st.fns.contains e.fileName
    if isDuplicate then st
    else
      { fns := st.fns ++ [e.fileName]
        us := st.us ++ e.urls
        nus := st.nus ++ e.urls.map normalizeUrl
        rows := st.rows ++ [mkRow (nextIdOf st.rows) e]
        added := st.added + 1
        errors := st.errors }

/-- The dedup state assembled before the `emails.forEach` loop
(dbService.ts 343-361): existing file names plus raw and normalized URL
sets decoded from the stored `urls` columns. -/
def saveInit (db : DBState) : SaveState :=
  ⟨getExistingFileNames db, db.rows.flatMap urlsOfRow,
    (db.rows.flatMap urlsOfRow).map normalizeUrl, db.rows, 0, []⟩

/-- The tail of `saveToDb` after the loop (dbService.ts 451-479): COMMIT
is unconditional, the durable snapshot is refreshed only when
`addedCount > 0`, and accumulated per-record errors become a thrown
`Error` after everything else happened. -/
def saveFinish (db : DBState) (fin : SaveState) : DBState × Option String :=
  if fin.errors.length = 0 then
    (⟨fin.rows, if 0 < fin.added then fin.rows else db.durable⟩, none)
  else
    (⟨fin.rows, if 0 < fin.added then fin.rows else db.durable⟩,
      some ("Errores guardando algunos emails: " ++
        String.intercalate "; " fin.errors))

/-- `saveToDb` (dbService.ts 334-480).  Returns the database after the
call together with `some message` when the final throw fires. -/
def saveToDb (emails : List AnalyzedEmail) (db : DBState) :
    DBState × Option String :=
  if emails.length = 0 then (db, none)
  else saveFinish db
    ((emails.enum).foldl (fun st p => saveStep p.1 p.2 st) (saveInit db))

/-- The decoded record shape returned by `getAllEmails`. -/
structure StoredRecord where
  id : String
  fileName : String
  fechaEnvio : String
  tematica : String
  etiquetas : List String
  contenido : String
  urls : List String
  status : String
  deriving Repr, DecidableEq

/-- Decoding one row in `getAllEmails` (dbService.ts 320-330).
`JSON.parse(entry.etiquetas || "[]")` has no surrounding try/catch, so a
malformed column makes the whole call throw — modelled by `none`. -/
def decodeRow (r : StoreRow) : Option StoredRecord :=
  (jsonParse (if r.etiquetas = "" then "[]" else r.etiquetas)).bind
    fun tags =>
      (jsonParse (if r.urls = "" then "[]" else r.urls)).map fun us =>
        { id := toString r.id
          fileName := r.fileName
          fechaEnvio := r.fechaEnvio
          tematica := r.tematica
          etiquetas := tags
          contenido := r.contenido
          urls := us
          status := "completed" }

/-- `ORDER BY id DESC`: insertion sort, largest id first. -/
def insertDesc (r : StoreRow) : List StoreRow → List StoreRow
  | [] => [r]
  | x :: xs => if x.id ≤ r.id then r :: x :: xs else x :: insertDesc r xs

def sortByIdDesc (l : List StoreRow) : List StoreRow :=
  l.foldr insertDesc []

/-- `getAllEmails` (dbService.ts 306-333): full scan ordered by id
descending, each row decoded; `none` models the decode exception
escaping to the caller. -/
def getAllEmails (db : DBState) : Option (List StoredRecord) :=
  (sortByIdDesc db.rows).mapM decodeRow

/-! ## Lemmas about `saveToDb`. -/

theorem jsonStringify_ne_empty (l : List String) : jsonStringify l ≠ "" := by
  intro h
  have hd : (jsonStringify l).data = '[' :: (encItems (l.map String.data) ++ [']']) := rfl
  rw [h] at hd
  exact List.cons_ne_nil _ _ hd.symm

theorem urlsOfRow_mkRow (n : Nat) (e : AnalyzedEmail) :
    urlsOfRow (mkRow n e) = e.urls := by
  show urlsOfRow
    { id := n, fileName := e.fileName, fechaEnvio := e.fechaEnvio,
      tematica := if e.tematica = "" then "Sin clasificar" else e.tematica,
      etiquetas := jsonStringify e.etiquetas, contenido := e.contenido,
      urls := jsonStringify e.urls } = e.urls
  rw [urlsOfRow]
  dsimp only
  rw [if_neg (jsonStringify_ne_empty e.urls), jsonParse_stringify]

theorem urlDupCheck_empty (st : SaveState) (e : AnalyzedEmail)
    (h1 : st.us = []) (h2 : st.nus = []) : urlDupCheck st e = false := by
  rw [urlDupCheck]
  rw [List.any_eq_false]
  intro i _
  rw [h1, h2]
  cases (normalizeUrls e.urls).get? i <;> simp [List.contains]

theorem urlDupCheck_of_norm_mem (st : SaveState) (e : AnalyzedEmail)
    (u : String) (hu : u ∈ e.urls) (hne : normalizeUrl u ≠ "")
    (hmem : normalizeUrl u ∈ st.nus) : urlDupCheck st e = true := by
  rw [urlDupCheck]
  rw [List.any_eq_true]
  have h1 : normalizeUrl u ∈ normalizeUrls e.urls := by
    rw [normalizeUrls, List.mem_filter]
    exact ⟨List.mem_map_of_mem _ hu, by simpa using hne⟩
  obtain ⟨i, hi⟩ := List.mem_iff_get?.mp h1
  have hlt : i < (normalizeUrls e.urls).length := by
    by_contra hge
    rw [List.get?_eq_none.mpr (le_of_not_lt hge)] at hi
    exact Option.noConfusion hi
  refine ⟨i, ?_, ?_⟩
  · rw [List.mem_range]
    calc i < (normalizeUrls e.urls).length := hlt
      _ ≤ (e.urls.map normalizeUrl).length := List.length_filter_le _ _
      _ = e.urls.length := List.length_map _ _
  · rw [hi]
    have hc : st.nus.contains (normalizeUrl u) = true := by
      rw [List.contains, List.elem_iff]
      exact hmem
    show (st.us.contains (e.urls.getD i "") ||
      st.nus.contains (normalizeUrl u)) = true
    rw [hc, Bool.or_true]

theorem urlDupCheck_of_raw_mem (st : SaveState) (e : AnalyzedEmail)
    (u : String) (hu : u ∈ e.urls) (hmem : u ∈ st.us) :
    urlDupCheck st e = true := by
  rw [urlDupCheck]
  rw [List.any_eq_true]
  obtain ⟨i, hi⟩ := List.mem_iff_get?.mp hu
  have hlt : i < e.urls.length := by
    by_contra hge
    rw [List.get?_eq_none.mpr (le_of_not_lt hge)] at hi
    exact Option.noConfusion hi
  refine ⟨i, List.mem_range.mpr hlt, ?_⟩
  have hgd : e.urls.getD i "" = u := by
    rw [List.getD_eq_getElem?_getD, ← List.get?_eq_getElem?, hi]
    rfl
  have hc : st.us.contains (e.urls.getD i "") = true := by
    rw [List.contains, List.elem_iff, hgd]
    exact hmem
  rw [hc, Bool.true_or]

theorem saveStep_insert (idx : Nat) (e : AnalyzedEmail) (st : SaveState)
    (hfn : e.fileName ≠ "") (hdup : urlDupCheck st e = false)
    (hfns : st.fns.contains e.fileName = false) :
    saveStep idx e st =
      { fns := st.fns ++ [e.fileName]
        us := st.us ++ e.urls
        nus := st.nus ++ e.urls.map normalizeUrl
        rows := st.rows ++ [mkRow (nextIdOf st.rows) e]
        added := st.added + 1
        errors := st.errors } := by
  rw [saveStep, if_neg hfn]
  dsimp only
  rw [hdup, hfns]
  rfl

theorem saveStep_dup (idx : Nat) (e : AnalyzedEmail) (st : SaveState)
    (hfn : e.fileName ≠ "")
    (hdup : (urlDupCheck st e || st.fns.contains e.fileName) = true) :
    saveStep idx e st = st := by
  rw [saveStep, if_neg hfn]
  dsimp only
  rw [if_pos hdup]

/-- C1: In `saveToDb`, duplicate status is decided by the URL check
first (raw and normalized sets) and by `fileName` only second, and the
in-memory dedup index is updated incrementally within a call; hence
appending two records with different `fileName` but an overlapping
normalized URL yields exactly one stored row — both in one call and in
successive calls. -/
theorem saveToDb_url_dedup (e1 e2 : AnalyzedEmail)
    (h1 : e1.fileName ≠ "") (h2 : e2.fileName ≠ "")
    (hfn : e1.fileName ≠ e2.fileName)
    (u1 u2 : String) (hu1 : u1 ∈ e1.urls) (hu2 : u2 ∈ e2.urls)
    (hnorm : normalizeUrl u1 = normalizeUrl u2) :
    (saveToDb [e1, e2] emptyDB).1.rows = [mkRow 1 e1] ∧
    (saveToDb [e2] (saveToDb [e1] emptyDB).1).1.rows = [mkRow 1 e1] := by
  clear hfn
  have key : ∀ st : SaveState, u1 ∈ st.us → normalizeUrl u1 ∈ st.nus →
      urlDupCheck st e2 = true := by
    intro st hus hnus
    by_cases hz : normalizeUrl u2 = ""
    · have hu2e : u2 = "" := (normalizeUrl_empty_iff u2).mp hz
      have hu1e : u1 = "" := (normalizeUrl_empty_iff u1).mp (hnorm.trans hz)
      refine urlDupCheck_of_raw_mem st e2 u2 hu2 ?_
      rw [hu2e, ← hu1e]
      exact hus
    · refine urlDupCheck_of_norm_mem st e2 u2 hu2 hz ?_
      rw [← hnorm]
      exact hnus
  have hinit : saveInit emptyDB = ⟨[], [], [], [], 0, []⟩ := rfl
  have hstep1 : saveStep 0 e1 ⟨[], [], [], [], 0, []⟩ =
      ⟨[e1.fileName], e1.urls, e1.urls.map normalizeUrl,
        [mkRow 1 e1], 1, []⟩ :=
    saveStep_insert 0 e1 _ h1 (urlDupCheck_empty _ _ rfl rfl) rfl
  have hstep2 : saveStep 1 e2
      ⟨[e1.fileName], e1.urls, e1.urls.map normalizeUrl,
        [mkRow 1 e1], 1, []⟩ =
      ⟨[e1.fileName], e1.urls, e1.urls.map normalizeUrl,
        [mkRow 1 e1], 1, []⟩ :=
    saveStep_dup 1 e2 _ h2 (by
      rw [key _ hu1 (List.mem_map_of_mem _ hu1)]
      rfl)
  constructor
  · rw [saveToDb, if_neg (by simp)]
    have henum : ([e1, e2]).enum = [(0, e1), (1, e2)] := rfl
    rw [henum, List.foldl_cons, List.foldl_cons, List.foldl_nil, hinit]
    dsimp only
    rw [hstep1, hstep2]
    rfl
  · have hc1 : saveToDb [e1] emptyDB =
        (⟨[mkRow 1 e1], [mkRow 1 e1]⟩, none) := by
      rw [saveToDb, if_neg (by simp)]
      have henum1 : ([e1]).enum = [(0, e1)] := rfl
      rw [henum1, List.foldl_cons, List.foldl_nil, hinit]
      dsimp only
      rw [hstep1]
      rfl
    rw [hc1]
    rw [saveToDb, if_neg (by simp)]
    have henum2 : ([e2]).enum = [(0, e2)] := rfl
    rw [henum2, List.foldl_cons, List.foldl_nil]
    dsimp only
    have hin1 : u1 ∈ [mkRow 1 e1].flatMap urlsOfRow := by
      rw [List.mem_flatMap]
      exact ⟨mkRow 1 e1, List.mem_singleton_self _,
        by rw [urlsOfRow_mkRow]; exact hu1⟩
    have hstep2b : saveStep 0 e2
        (saveInit ⟨[mkRow 1 e1], [mkRow 1 e1]⟩) =
        saveInit ⟨[mkRow 1 e1], [mkRow 1 e1]⟩ :=
      saveStep_dup 0 e2 _ h2 (by
        rw [key _ hin1 (List.mem_map_of_mem _ hin1)]
        rfl)
    rw [hstep2b]
    rfl

def we1 : AnalyzedEmail :=
  ⟨"id1", "a.eml", "2024-01-01", "Tech", ["AI"], "c1",
    ["https://twitter.com/Bob/status/7?t=x"], "completed", none⟩

def we2 : AnalyzedEmail :=
  ⟨"id2", "b.eml", "2024-01-02", "Tech", [], "c2",
    ["https://x.com/Bob/status/7"], "completed", none⟩

/-- Witness for C1 at two concrete records sharing a post URL in
different spellings. -/
theorem saveToDb_url_dedup_witness :
    (saveToDb [we1, we2] emptyDB).1.rows = [mkRow 1 we1] ∧
    (saveToDb [we2] (saveToDb [we1] emptyDB).1).1.rows = [mkRow 1 we1] :=
  saveToDb_url_dedup we1 we2 (by decide) (by decide) (by decide)
    "https://twitter.com/Bob/status/7?t=x" "https://x.com/Bob/status/7"
    (by decide) (by decide) (by decide)

/-- C10: a multi-record `saveToDb` call is not atomic across its
records: with a valid first record and a second record failing
validation (missing `fileName`), the first record is still inserted and
persisted to the durable snapshot, and the call then reports the thrown
error listing the per-record failure, with the inserted row remaining in
the store. -/
theorem saveToDb_partial_failure (e1 e2 : AnalyzedEmail)
    (h1 : e1.fileName ≠ "") (h2 : e2.fileName = "") :
    (saveToDb [e1, e2] emptyDB).1.rows = [mkRow 1 e1] ∧
    (saveToDb [e1, e2] emptyDB).1.durable = [mkRow 1 e1] ∧
    (saveToDb [e1, e2] emptyDB).2 =
      some "Errores guardando algunos emails: Email 2: fileName faltante" := by
  have hinit : saveInit emptyDB = ⟨[], [], [], [], 0, []⟩ := rfl
  have hstep1 : saveStep 0 e1 ⟨[], [], [], [], 0, []⟩ =
      ⟨[e1.fileName], e1.urls, e1.urls.map normalizeUrl,
        [mkRow 1 e1], 1, []⟩ :=
    saveStep_insert 0 e1 _ h1 (urlDupCheck_empty _ _ rfl rfl) rfl
  have hstep2 : saveStep 1 e2
      ⟨[e1.fileName], e1.urls, e1.urls.map normalizeUrl,
        [mkRow 1 e1], 1, []⟩ =
      ⟨[e1.fileName], e1.urls, e1.urls.map normalizeUrl,
        [mkRow 1 e1], 1, ["Email 2: fileName faltante"]⟩ := by
    rw [saveStep, if_pos h2]
    rfl
  have hrun : saveToDb [e1, e2] emptyDB =
      (⟨[mkRow 1 e1], [mkRow 1 e1]⟩,
        some "Errores guardando algunos emails: Email 2: fileName faltante") := by
    rw [saveToDb, if_neg (by simp)]
    have henum : ([e1, e2]).enum = [(0, e1), (1, e2)] := rfl
    rw [henum, List.foldl_cons, List.foldl_cons, List.foldl_nil, hinit]
    dsimp only
    rw [hstep1, hstep2]
    rfl
  rw [hrun]
  exact ⟨rfl, rfl, rfl⟩

def wv1 : AnalyzedEmail :=
  ⟨"idA", "ok.eml", "2024-02-02", "News", ["x"], "body",
    ["https://example.org/a"], "completed", none⟩

def wv2 : AnalyzedEmail :=
  ⟨"idB", "", "2024-02-03", "News", [], "body2", [], "error", some "boom"⟩

/-- Witness for C10 at a concrete valid/invalid record pair. -/
theorem saveToDb_partial_failure_witness :
    (saveToDb [wv1, wv2] emptyDB).1.rows = [mkRow 1 wv1] ∧
    (saveToDb [wv1, wv2] emptyDB).1.durable = [mkRow 1 wv1] ∧
    (saveToDb [wv1, wv2] emptyDB).2 =
      some "Errores guardando algunos emails: Email 2: fileName faltante" :=
  saveToDb_partial_failure wv1 wv2 (by decide) (by decide)

/-! ## `getAllEmails`: sorting and decoding lemmas. -/

theorem insertDesc_perm (r : StoreRow) (l : List StoreRow) :
    (insertDesc r l).Perm (r :: l) := by
  induction l with
  | nil => exact List.Perm.refl _
  | cons x xs ih =>
    rw [insertDesc]
    split_ifs with hle
    · exact List.Perm.refl _
    · exact (ih.cons x).trans (List.Perm.swap r x xs)

theorem sortByIdDesc_perm (l : List StoreRow) : (sortByIdDesc l).Perm l := by
  induction l with
  | nil => exact List.Perm.refl _
  | cons x xs ih =>
    show (insertDesc x (sortByIdDesc xs)).Perm (x :: xs)
    exact (insertDesc_perm x (sortByIdDesc xs)).trans (ih.cons x)

theorem insertDesc_pairwise (r : StoreRow) (l : List StoreRow)
    (h : List.Pairwise (fun a b => b.id ≤ a.id) l) :
    List.Pairwise (fun a b => b.id ≤ a.id) (insertDesc r l) := by
  induction l with
  | nil => exact List.pairwise_singleton _ _
  | cons x xs ih =>
    rw [insertDesc]
    rw [List.pairwise_cons] at h
    split_ifs with hle
    · refine List.Pairwise.cons ?_ (List.Pairwise.cons h.1 h.2)
      intro b hb
      rcases List.mem_cons.mp hb with hbx | hbxs
      · subst hbx; exact hle
      · exact le_trans (h.1 b hbxs) hle
    · refine List.Pairwise.cons ?_ (ih h.2)
      intro b hb
      rcases List.mem_cons.mp ((insertDesc_perm r xs).mem_iff.mp hb)
        with hbr | hbxs
      · subst hbr
        exact le_of_lt (lt_of_not_le hle)
      · exact h.1 b hbxs

theorem sortByIdDesc_pairwise (l : List StoreRow) :
    List.Pairwise (fun a b => b.id ≤ a.id) (sortByIdDesc l) := by
  induction l with
  | nil => exact List.Pairwise.nil
  | cons x xs ih => exact insertDesc_pairwise x (sortByIdDesc xs) ih

theorem decodeRow_status (r : StoreRow) (rec : StoredRecord)
    (h : decodeRow r = some rec) : rec.status = "completed" := by
  rw [decodeRow] at h
  obtain ⟨tags, h1, h2⟩ := Option.bind_eq_some.mp h
  obtain ⟨us, h3, h4⟩ := Option.map_eq_some'.mp h2
  rw [← h4]

theorem mapM_decode (l : List StoreRow)
    (h : ∀ r ∈ l, (decodeRow r).isSome) :
    ∃ out, l.mapM decodeRow = some out ∧
      List.Forall₂ (fun r rec => decodeRow r = some rec) l out := by
  induction l with
  | nil => exact ⟨[], rfl, List.Forall₂.nil⟩
  | cons x xs ih =>
    obtain ⟨rec, hrec⟩ := Option.isSome_iff_exists.mp (h x (List.mem_cons_self x xs))
    obtain ⟨out, hout, hfa⟩ := ih (fun r hr => h r (List.mem_cons_of_mem x hr))
    refine ⟨rec :: out, ?_, List.Forall₂.cons hrec hfa⟩
    rw [List.mapM_cons, hrec, hout]
    rfl

def badRow : StoreRow := ⟨1, "a.eml", "2024-01-01", "Tech", "not json", "c", "[]"⟩

def badDB : DBState := ⟨[badRow], [badRow]⟩

/-- C8 counterexample: a store whose single row has malformed JSON in
its `etiquetas` column.  `JSON.parse(entry.etiquetas || "[]")` in
`getAllEmails` has no try/catch, so the decode exception escapes to the
caller (`none`) instead of an empty-array substitution. -/
theorem getAllEmails_decode_counterexample :
    getAllEmails badDB = none ∧ badDB.rows ≠ [] := by
  exact ⟨rfl, by decide⟩

theorem forall₂_decode_status (l : List StoreRow) (out : List StoredRecord)
    (hfa : List.Forall₂ (fun r rec => decodeRow r = some rec) l out) :
    ∀ rec ∈ out, rec.status = "completed" := by
  induction hfa with
  | nil => intro rec hrec; exact absurd hrec (List.not_mem_nil rec)
  | cons hd tl ih =>
    intro rec hrec
    rcases List.mem_cons.mp hrec with hr | hr
    · subst hr
      exact decodeRow_status _ _ hd
    · exact ih rec hr

/-- C8 amended: when every stored row's `etiquetas` and `urls` columns
decode (the `|| "[]"` fallback only covers empty text, not malformed
text), `getAllEmails` returns the rows ordered most-recently-inserted
first (descending id), each decoded to arrays and marked `completed`. -/
theorem getAllEmails_amended (db : DBState)
    (h : ∀ r ∈ db.rows, (decodeRow r).isSome) :
    ∃ l, getAllEmails db = some l ∧
      List.Forall₂ (fun r rec => decodeRow r = some rec)
        (sortByIdDesc db.rows) l ∧
      (∀ rec ∈ l, rec.status = "completed") ∧
      (sortByIdDesc db.rows).Perm db.rows ∧
      List.Pairwise (fun a b => b.id ≤ a.id) (sortByIdDesc db.rows) := by
  have hperm := sortByIdDesc_perm db.rows
  obtain ⟨out, hout, hfa⟩ := mapM_decode (sortByIdDesc db.rows)
    (fun r hr => h r (hperm.mem_iff.mp hr))
  exact ⟨out, hout, hfa, forall₂_decode_status _ _ hfa, hperm,
    sortByIdDesc_pairwise db.rows⟩

def wdbRow : StoreRow :=
  ⟨1, "a.eml", "2024-01-01", "Tech", "[\"x\"]", "c", "[\"https://e.org/\"]"⟩

def wdb : DBState := ⟨[wdbRow], [wdbRow]⟩

/-- Witness for the amended C8 theorem at a concrete well-formed store. -/
theorem getAllEmails_amended_witness :
    (∀ r ∈ wdb.rows, (decodeRow r).isSome) ∧
    (∃ l, getAllEmails wdb = some l ∧
      List.Forall₂ (fun r rec => decodeRow r = some rec)
        (sortByIdDesc wdb.rows) l ∧
      (∀ rec ∈ l, rec.status = "completed") ∧
      (sortByIdDesc wdb.rows).Perm wdb.rows ∧
      List.Pairwise (fun a b => b.id ≤ a.id) (sortByIdDesc wdb.rows)) :=
  ⟨by decide, getAllEmails_amended wdb (by decide)⟩

/-! ## The Gemini enrichment retry loops
(`analyzeEmailContent`, part_003 lines 289-485, and `analyzeUrlContent`,
part_003 lines 837-1094).

A Gemini attempt is abstracted by an oracle `Nat → AttemptRes` giving,
for each attempt number, either the validated parsed response or the
thrown JS error (everything thrown inside the `try` — network failure,
empty text, JSON parse failure — lands in the same `catch`).  Delays are
exact rationals (`delay *= 1.5` on JS floats is exact for these values);
`waits` records the arguments of the executed `await wait(delay)` calls
and `tried` the attempt numbers whose `try` body ran. -/

structure Analysis where
  tematica : String
  etiquetas : List String
  contenido_resumido : String
  urls : List String
  fecha_normalizada : String
  deriving Repr, DecidableEq

/-- A thrown JS error as inspected by the `catch` blocks: `status`,
`code` and `message` may each be absent. -/
structure JsErr where
  status : Option Nat
  code : Option Nat
  message : Option String
  deriving Repr, DecidableEq

inductive AttemptRes where
  | ok (a : Analysis)
  | err (e : JsErr)
  deriving Repr, DecidableEq

/-- `msg.includes(pat)` on JS strings. -/
def strIncludes (hay pat : String) : Bool :=
  decide (pat.data <:+: hay.data)

/-- The `isTransient` test of both catch blocks. -/
def isTransient (e : JsErr) : Bool :=
  e.status == some 429 || e.code == some 429 ||
    match e.message with
    | some m => strIncludes m "429" || strIncludes m "quota" ||
        strIncludes m "RESOURCE_EXHAUSTED"
    | none => false

/-- The aggregated outcome of one enrichment call. -/
structure RetryOut where
  result : Analysis
  waits : List ℚ
  tried : List Nat
  deriving Repr, DecidableEq

/-- The `while (attempt <= maxAttempts)` loop shared verbatim by both
entry points; `mkQuota`/`mkErr` build the two sentinel results from the
last error and `fb` is the (unreachable) fallback result after the
loop.  `fuel` only bounds the recursion; it is spent once per loop
iteration. -/
def retryGo (o : Nat → AttemptRes) (mkQuota mkErr : JsErr → Analysis)
    (fb : Analysis) :
    Nat → Nat → ℚ → List ℚ → List Nat → RetryOut
  | 0, _, _, ws, tr => ⟨fb, ws, tr⟩
  | fuel + 1, attempt, delay, ws, tr =>
    match o attempt with
    | .ok a => ⟨a, ws, tr ++ [attempt]⟩
    | .err e =>
      if isTransient e then
        if attempt < 5 then
          retryGo o mkQuota mkErr fb fuel (attempt + 1) (delay * (3 / 2))
            (ws ++ [delay]) (tr ++ [attempt])
        else ⟨mkQuota e, ws, tr ++ [attempt]⟩
      else
        if attempt = 5 then ⟨mkErr e, ws, tr ++ [attempt]⟩
        else
          retryGo o mkQuota mkErr fb fuel (attempt + 1) (delay * (3 / 2))
            (ws ++ [delay]) (tr ++ [attempt])

def runRetry (o : Nat → AttemptRes) (mkQuota mkErr : JsErr → Analysis)
    (fb : Analysis) : RetryOut :=
  retryGo o mkQuota mkErr fb 5 1 10000 [] []

/-- The email data consumed by `analyzeEmailContent`'s sentinel
payloads. -/
structure ParsedEmailRaw where
  fileName : String
  rawDate : String
  rawSubject : String
  bodyText : String
  deriving Repr, DecidableEq

def quotaText : String :=
  "Error: Se ha excedido la cuota de la API Key definida en tu fichero .env (429 Resource Exhausted). Espera unos minutos o revisa tu plan de facturación en Google AI Studio."

def errMessageOf (e : JsErr) : String :=
  match e.message with
  | some m => if m = "" then "Error desconocido" else m
  | none => "Error desconocido"

def emailQuotaRes (ed : ParsedEmailRaw) : JsErr → Analysis :=
  fun _ => ⟨"Error Cuota API", ["Error", "Quota"], quotaText, [],
    ed.rawDate⟩

def emailErrRes (ed : ParsedEmailRaw) : JsErr → Analysis :=
  fun e =>
    ⟨"Error en Análisis", ["Error"],
      "Error analizando contenido después de 5 intentos: " ++
        errMessageOf e ++ ". Contenido parcial: " ++
        ⟨ed.bodyText.data.take 200⟩, [], ed.rawDate⟩

def emailFallbackRes (ed : ParsedEmailRaw) : Analysis :=
  ⟨"Error", ["Error"], "Error desconocido tras reintentos.", [],
    ed.rawDate⟩

/-- `analyzeEmailContent` (part_003 289-485) with the Gemini call
abstracted by `o`. -/
def analyzeEmailContent (ed : ParsedEmailRaw) (o : Nat → AttemptRes) :
    RetryOut :=
  runRetry o (emailQuotaRes ed) (emailErrRes ed) (emailFallbackRes ed)

def urlQuotaRes (url now : String) : JsErr → Analysis :=
  fun _ => ⟨"Error Cuota API", ["Error", "Quota"], quotaText, [url], now⟩

def urlErrRes (url now : String) : JsErr → Analysis :=
  fun e =>
    ⟨"Error en Análisis", ["Error"],
      "<p>Error: Error analizando URL después de 5 intentos: " ++
        errMessageOf e ++ "</p><p>URL: <a href=\"" ++ url ++ "\">" ++
        url ++ "</a></p>", [url], now⟩

def urlFallbackRes (url now : String) : Analysis :=
  ⟨"Error", ["Error"],
    "<p>Error desconocido tras reintentos.</p><p>URL: <a href=\"" ++
      url ++ "\">" ++ url ++ "</a></p>", [url], now⟩

/-- `analyzeUrlContent` (part_003 837-1094) with the Gemini call
abstracted by `o`; `now` stands for the timestamp
`new Date().toISOString().slice(0, 19).replace('T', ' ')`. -/
def analyzeUrlContent (url now : String) (o : Nat → AttemptRes) :
    RetryOut :=
  runRetry o (urlQuotaRes url now) (urlErrRes url now)
    (urlFallbackRes url now)

/-- The uncapped geometric delay schedule 10 s * 1.5^k. -/
def geomDelays : List ℚ := [10000, 15000, 22500, 33750]

/-- The delay value held by `delay` when attempt `a` begins. -/
def del (a : Nat) : ℚ := 10000 * (3 / 2) ^ (a - 1)

def retryAt (o : Nat → AttemptRes) (mkQuota mkErr : JsErr → Analysis)
    (fb : Analysis) (fuel attempt : Nat) : RetryOut :=
  retryGo o mkQuota mkErr fb fuel attempt (del attempt)
    (geomDelays.take (attempt - 1)) (List.range' 1 (attempt - 1))

theorem runRetry_eq_retryAt (o : Nat → AttemptRes)
    (mkQuota mkErr : JsErr → Analysis) (fb : Analysis) :
    runRetry o mkQuota mkErr fb = retryAt o mkQuota mkErr fb 5 1 := by
  rw [runRetry, retryAt]
  norm_num [del]

theorem retryGo_succ (o : Nat → AttemptRes)
    (mkQuota mkErr : JsErr → Analysis) (fb : Analysis)
    (fuel attempt : Nat) (delay : ℚ) (ws : List ℚ) (tr : List Nat) :
    retryGo o mkQuota mkErr fb (fuel + 1) attempt delay ws tr =
      match o attempt with
      | .ok a => ⟨a, ws, tr ++ [attempt]⟩
      | .err e =>
        if isTransient e then
          if attempt < 5 then
            retryGo o mkQuota mkErr fb fuel (attempt + 1) (delay * (3 / 2))
              (ws ++ [delay]) (tr ++ [attempt])
          else ⟨mkQuota e, ws, tr ++ [attempt]⟩
        else
          if attempt = 5 then ⟨mkErr e, ws, tr ++ [attempt]⟩
          else
            retryGo o mkQuota mkErr fb fuel (attempt + 1) (delay * (3 / 2))
              (ws ++ [delay]) (tr ++ [attempt]) := by
  rw [retryGo.eq_def]

theorem del_succ (a : Nat) (h : 1 ≤ a) : del (a + 1) = del a * (3 / 2) := by
  rw [del, del]
  obtain ⟨b, rfl⟩ : ∃ b, a = b + 1 := ⟨a - 1, by omega⟩
  rw [show b + 1 + 1 - 1 = b + 1 from rfl, show b + 1 - 1 = b from rfl,
    pow_succ, mul_assoc]

theorem geom_take_succ (a : Nat) (h1 : 1 ≤ a) (h5 : a < 5) :
    geomDelays.take (a - 1) ++ [del a] = geomDelays.take a := by
  interval_cases a <;> · rw [del]; norm_num [geomDelays]

theorem range'_snoc (a : Nat) (h : 1 ≤ a) :
    List.range' 1 (a - 1) ++ [a] = List.range' 1 a := by
  obtain ⟨b, rfl⟩ : ∃ b, a = b + 1 := ⟨a - 1, by omega⟩
  rw [show b + 1 - 1 = b from rfl, List.range'_concat]
  have h2 : 1 + 1 * b = b + 1 := by omega
  rw [h2]

theorem retryGo_spec (o : Nat → AttemptRes) (mkQ mkE : JsErr → Analysis)
    (fb : Analysis) :
    ∀ fuel attempt, attempt + fuel = 6 → 1 ≤ attempt → attempt ≤ 5 →
    ∃ a', attempt ≤ a' ∧ a' ≤ 5 ∧
      (retryAt o mkQ mkE fb fuel attempt).waits =
        geomDelays.take (a' - 1) ∧
      (retryAt o mkQ mkE fb fuel attempt).tried = List.range' 1 a' ∧
      ((∃ e, o a' = AttemptRes.err e ∧ isTransient e = true ∧ a' = 5 ∧
          (retryAt o mkQ mkE fb fuel attempt).result = mkQ e) ∨
       (∃ e, o a' = AttemptRes.err e ∧ isTransient e = false ∧ a' = 5 ∧
          (retryAt o mkQ mkE fb fuel attempt).result = mkE e) ∨
       (∃ a, o a' = AttemptRes.ok a ∧
          (retryAt o mkQ mkE fb fuel attempt).result = a)) := by
  intro fuel
  induction fuel with
  | zero => intro attempt h6 h1 h5; omega
  | succ f ih =>
    intro attempt h6 h1 h5
    rw [retryAt, retryGo_succ]
    cases ho : o attempt with
    | ok a =>
      refine ⟨attempt, le_refl _, h5, rfl, range'_snoc attempt h1,
        Or.inr (Or.inr ⟨a, ho, rfl⟩)⟩
    | err e =>
      dsimp only
      cases hte : isTransient e with
      | true =>
        by_cases hlt : attempt < 5
        · rw [if_pos rfl, if_pos hlt]
          have hR : retryGo o mkQ mkE fb f (attempt + 1)
              (del attempt * (3 / 2))
              (geomDelays.take (attempt - 1) ++ [del attempt])
              (List.range' 1 (attempt - 1) ++ [attempt]) =
              retryAt o mkQ mkE fb f (attempt + 1) := by
            rw [retryAt, show attempt + 1 - 1 = attempt from rfl,
              del_succ attempt h1, ← geom_take_succ attempt h1 hlt,
              ← range'_snoc attempt h1]
          rw [hR]
          obtain ⟨a', ha1, ha5, hw, htr, hres⟩ :=
            ih (attempt + 1) (by omega) (by omega) (by omega)
          exact ⟨a', by omega, ha5, hw, htr, hres⟩
        · have h5e : attempt = 5 := by omega
          subst h5e
          rw [if_pos rfl, if_neg hlt]
          exact ⟨5, le_refl _, le_refl _, rfl,
            range'_snoc 5 (by omega), Or.inl ⟨e, ho, hte, rfl, rfl⟩⟩
      | false =>
        rw [if_neg Bool.false_ne_true]
        by_cases h5e : attempt = 5
        · subst h5e
          rw [if_pos rfl]
          exact ⟨5, le_refl _, le_refl _, rfl,
            range'_snoc 5 (by omega),
            Or.inr (Or.inl ⟨e, ho, hte, rfl, rfl⟩)⟩
        · rw [if_neg h5e]
          have hlt : attempt < 5 := by omega
          have hR : retryGo o mkQ mkE fb f (attempt + 1)
              (del attempt * (3 / 2))
              (geomDelays.take (attempt - 1) ++ [del attempt])
              (List.range' 1 (attempt - 1) ++ [attempt]) =
              retryAt o mkQ mkE fb f (attempt + 1) := by
            rw [retryAt, show attempt + 1 - 1 = attempt from rfl,
              del_succ attempt h1, ← geom_take_succ attempt h1 hlt,
              ← range'_snoc attempt h1]
          rw [hR]
          obtain ⟨a', ha1, ha5, hw, htr, hres⟩ :=
            ih (attempt + 1) (by omega) (by omega) (by omega)
          exact ⟨a', by omega, ha5, hw, htr, hres⟩

theorem runRetry_spec (o : Nat → AttemptRes) (mkQ mkE : JsErr → Analysis)
    (fb : Analysis) :
    ∃ a', 1 ≤ a' ∧ a' ≤ 5 ∧
      (runRetry o mkQ mkE fb).waits = geomDelays.take (a' - 1) ∧
      (runRetry o mkQ mkE fb).tried = List.range' 1 a' ∧
      ((∃ e, o a' = AttemptRes.err e ∧ isTransient e = true ∧ a' = 5 ∧
          (runRetry o mkQ mkE fb).result = mkQ e) ∨
       (∃ e, o a' = AttemptRes.err e ∧ isTransient e = false ∧ a' = 5 ∧
          (runRetry o mkQ mkE fb).result = mkE e) ∨
       (∃ a, o a' = AttemptRes.ok a ∧
          (runRetry o mkQ mkE fb).result = a)) := by
  rw [runRetry_eq_retryAt]
  exact retryGo_spec o mkQ mkE fb 5 1 rfl (by omega) (by omega)

theorem runRetry_all_transient (o : Nat → AttemptRes)
    (mkQ mkE : JsErr → Analysis) (fb : Analysis)
    (h : ∀ i, 1 ≤ i → i ≤ 5 →
      ∃ e, o i = AttemptRes.err e ∧ isTransient e = true) :
    ∃ e, o 5 = AttemptRes.err e ∧
      (runRetry o mkQ mkE fb).result = mkQ e ∧
      (runRetry o mkQ mkE fb).waits = geomDelays := by
  obtain ⟨a', h1, h5, hw, htr, hres⟩ := runRetry_spec o mkQ mkE fb
  rcases hres with ⟨e, hoe, hte, h5e, hr⟩ | ⟨e, hoe, hte, h5e, hr⟩ |
    ⟨a, hoa, hr⟩
  · subst h5e
    refine ⟨e, hoe, hr, ?_⟩
    rw [hw]
    rfl
  · obtain ⟨e', hoe', hte'⟩ := h a' h1 h5
    rw [hoe, AttemptRes.err.injEq] at hoe'
    rw [hoe', hte'] at hte
    exact absurd hte (by simp)
  · obtain ⟨e', hoe', _⟩ := h a' h1 h5
    rw [hoa] at hoe'
    exact AttemptRes.noConfusion hoe'

theorem runRetry_all_nontransient (o : Nat → AttemptRes)
    (mkQ mkE : JsErr → Analysis) (fb : Analysis)
    (h : ∀ i, 1 ≤ i → i ≤ 5 →
      ∃ e, o i = AttemptRes.err e ∧ isTransient e = false) :
    ∃ e, o 5 = AttemptRes.err e ∧
      (runRetry o mkQ mkE fb).result = mkE e ∧
      (runRetry o mkQ mkE fb).waits = geomDelays := by
  obtain ⟨a', h1, h5, hw, htr, hres⟩ := runRetry_spec o mkQ mkE fb
  rcases hres with ⟨e, hoe, hte, h5e, hr⟩ | ⟨e, hoe, hte, h5e, hr⟩ |
    ⟨a, hoa, hr⟩
  · obtain ⟨e', hoe', hte'⟩ := h a' h1 h5
    rw [hoe, AttemptRes.err.injEq] at hoe'
    rw [hoe', hte'] at hte
    exact absurd hte (by simp)
  · subst h5e
    refine ⟨e, hoe, hr, ?_⟩
    rw [hw]
    rfl
  · obtain ⟨e', hoe', _⟩ := h a' h1 h5
    rw [hoa] at hoe'
    exact AttemptRes.noConfusion hoe'

/-- C5: both enrichment entry points make at most 5 attempts, waiting
between attempts along the uncapped schedule 10 s, 15 s, 22.5 s, 33.75 s
(a prefix of `geomDelays`); a transient error on every attempt ends with
the quota sentinel topic and a non-transient error on every attempt ends
with the generic sentinel topic, in both cases returning normally
rather than throwing. -/
theorem retry_policy (o : Nat → AttemptRes) (ed : ParsedEmailRaw)
    (url now : String) :
    (∃ k, k ≤ 4 ∧ (analyzeEmailContent ed o).waits = geomDelays.take k) ∧
    (∃ k, k ≤ 4 ∧ (analyzeUrlContent url now o).waits = geomDelays.take k) ∧
    (analyzeEmailContent ed o).tried.length ≤ 5 ∧
    (analyzeUrlContent url now o).tried.length ≤ 5 ∧
    ((∀ i, 1 ≤ i → i ≤ 5 →
        ∃ e, o i = AttemptRes.err e ∧ isTransient e = true) →
      (analyzeEmailContent ed o).result.tematica = "Error Cuota API" ∧
      (analyzeUrlContent url now o).result.tematica = "Error Cuota API" ∧
      (analyzeEmailContent ed o).waits = geomDelays) ∧
    ((∀ i, 1 ≤ i → i ≤ 5 →
        ∃ e, o i = AttemptRes.err e ∧ isTransient e = false) →
      (analyzeEmailContent ed o).result.tematica = "Error en Análisis" ∧
      (analyzeUrlContent url now o).result.tematica = "Error en Análisis" ∧
      (analyzeEmailContent ed o).waits = geomDelays) := by
  obtain ⟨aE, h1E, h5E, hwE, htE, -⟩ :=
    runRetry_spec o (emailQuotaRes ed) (emailErrRes ed) (emailFallbackRes ed)
  obtain ⟨aU, h1U, h5U, hwU, htU, -⟩ :=
    runRetry_spec o (urlQuotaRes url now) (urlErrRes url now)
      (urlFallbackRes url now)
  refine ⟨⟨aE - 1, by omega, hwE⟩, ⟨aU - 1, by omega, hwU⟩, ?_, ?_,
    ?_, ?_⟩
  · rw [analyzeEmailContent, htE, List.length_range']
    omega
  · rw [analyzeUrlContent, htU, List.length_range']
    omega
  · intro h
    obtain ⟨e, ho5, hres, hwfull⟩ := runRetry_all_transient o
      (emailQuotaRes ed) (emailErrRes ed) (emailFallbackRes ed) h
    obtain ⟨e2, ho5b, hres2, -⟩ := runRetry_all_transient o
      (urlQuotaRes url now) (urlErrRes url now) (urlFallbackRes url now) h
    refine ⟨?_, ?_, ?_⟩
    · rw [analyzeEmailContent, hres]
      rfl
    · rw [analyzeUrlContent, hres2]
      rfl
    · rw [analyzeEmailContent, hwfull]
  · intro h
    obtain ⟨e, ho5, hres, hwfull⟩ := runRetry_all_nontransient o
      (emailQuotaRes ed) (emailErrRes ed) (emailFallbackRes ed) h
    obtain ⟨e2, ho5b, hres2, -⟩ := runRetry_all_nontransient o
      (urlQuotaRes url now) (urlErrRes url now) (urlFallbackRes url now) h
    refine ⟨?_, ?_, ?_⟩
    · rw [analyzeEmailContent, hres]
      rfl
    · rw [analyzeUrlContent, hres2]
      rfl
    · rw [analyzeEmailContent, hwfull]

def wO : Nat → AttemptRes := fun _ => AttemptRes.err ⟨some 429, none, none⟩

def wEd : ParsedEmailRaw := ⟨"f.eml", "2024-01-01", "subj", "body"⟩

/-- Witness for C5: with every attempt failing transiently (HTTP 429),
both entry points end with the quota sentinel after the full delay
schedule. -/
theorem retry_policy_witness :
    (analyzeEmailContent wEd wO).result.tematica = "Error Cuota API" ∧
    (analyzeUrlContent "https://u" "2024" wO).result.tematica =
      "Error Cuota API" ∧
    (analyzeEmailContent wEd wO).waits = geomDelays :=
  (retry_policy wO wEd "https://u" "2024").2.2.2.2.1
    (fun i h1 h5 => ⟨⟨some 429, none, none⟩, rfl, by decide⟩)

/-! ## The processing pipeline (`processFiles` in `App.tsx`, lines
144-420).

React state is passed explicitly: `RunState.status`, `errorMsg` and the
store are the values held by the external `setStatus`/`setErrorMsg`
setters, while the `status` read *inside* the closure is the stale
render-time value `s0`, constant for the whole run.  The cooperative
cancellation ref is `flag`; `press i` means the user's stop button had
been pressed by the time of the loop-start check of iteration `i`
(`press items.length`: between the last check and the final guard), and
`pressD i` means it was pressed during the 15 s delay of iteration
`i > 0`, which breaks the wait and `continue`s to the next index.
Each item's parse/enrichment outcome is given by the `PipeItem` fields;
`uuidv4()` ids are abstracted as `""` (never read by the store) and
`new Date()` as the parameter `now`.  `touched` is a ghost field listing
the iterations whose per-item body ran. -/

inductive ProcessingStatus where
  | IDLE
  | PARSING
  | ANALYZING
  | GENERATING_DB
  | COMPLETED
  | ERROR
  deriving Repr, DecidableEq

deriving instance DecidableEq for Except

structure PipeItem where
  name : String
  rawDate : String
  bodyText : String
  parse : Option String
  analyze : Except String Analysis
  deriving Repr, DecidableEq

structure RunState where
  status : ProcessingStatus
  errorMsg : Option String
  flag : Bool
  db : DBState
  results : List AnalyzedEmail
  perrors : List String
  touched : List Nat
  deriving Repr, DecidableEq

def userCancelMsg : String := "Procesamiento cancelado por el usuario"

def cancelMsg (n : Nat) : String :=
  "Procesamiento cancelado. " ++ toString n ++
    " archivo(s) procesado(s) antes de la cancelación."

def quotaErrorMsg : String :=
  "Tu API Key ha excedido la cuota gratuita (429). Espera un minuto o revisa tu plan."

def progressMsg (k n : Nat) (name : String) : String :=
  "Procesando " ++ toString k ++ "/" ++ toString n ++ ": " ++ name

def fileErrorMsg (name : String) (c : Nat) : String :=
  "Error en " ++ name ++ ". " ++ toString c ++
    " error(es) hasta ahora. Revisa la consola (F12) para detalles."

def summaryMsg (r e : Nat) : String :=
  toString r ++ " archivo(s) procesado(s). " ++ toString e ++
    " error(es) - descarga los logs para detalles."

/-- The outer catch's message selection (App.tsx 411-418). -/
def criticalMsg (msg : String) (n : Nat) : String :=
  if strIncludes msg "API Key" then msg
  else "Error procesando ficheros. " ++ toString n ++
    " procesado(s). Descarga los logs para detalles."

/-- The error entry built for a thrown per-item failure
(App.tsx 343-356). -/
def mkErrEmail (name now msg : String) : AnalyzedEmail :=
  { id := ""
    fileName := name
    fechaEnvio := now
    tematica := "Error en Análisis"
    etiquetas := ["Error"]
    contenido := "Error procesando archivo: " ++
      (if msg = "" then "No se pudo analizar el contenido" else msg) ++
      ". Revisa la consola (F12) para más detalles."
    urls := []
    status := "error"
    errorMessage := some (if msg = "" then "Error desconocido" else msg) }

/-- The validated success record (App.tsx 267-307). -/
def mkOkEmail (it : PipeItem) (a : Analysis) (now : String) :
    AnalyzedEmail :=
  { id := ""
    fileName := it.name
    fechaEnvio := if a.fecha_normalizada ≠ "" then a.fecha_normalizada.trim
      else if it.rawDate ≠ "" then it.rawDate else now
    tematica := if a.tematica ≠ "" then a.tematica.trim
      else "Sin clasificar"
    etiquetas := a.etiquetas.filter fun t => decide (t.trim ≠ "")
    contenido := if a.contenido_resumido ≠ "" then a.contenido_resumido.trim
      else if it.bodyText.trim ≠ "" then
        "<p>" ++ (⟨it.bodyText.data.take 500⟩ : String).trim ++ "...</p>"
      else "<p>No se pudo obtener el contenido del correo.</p>"
    urls := a.urls.filter fun u => decide (u.trim ≠ "")
    status := "completed"
    errorMessage := none }

/-- The per-item catch block (App.tsx 331-371): record the error
message, append and immediately save an error entry (save failures
swallowed), and update the UI error message. -/
def catchStep (name now msg : String) (st : RunState) : RunState :=
  let m := if msg = "" then "Error desconocido" else msg
  let perrs := st.perrors ++ ["Error procesando " ++ name ++ ": " ++ m]
  let ee := mkErrEmail name now msg
  { st with
    perrors := perrs
    results := st.results ++ [ee]
    db := (saveToDb [ee] st.db).1
    errorMsg := some (fileErrorMsg name perrs.length) }

/-- The `for` loop of `processFiles` (App.tsx 163-373).  The returned
`Bool` is `true` when the loop `return`ed early (cancellation branch);
`break` (quota sentinel) ends the loop normally so the postlude still
runs.  A `saveToDb` throw or a `getAllEmails` decode throw inside the
cancellation branch escapes to the outer catch (App.tsx 407-419); the
decode exception's engine message is not modelled and never contains
"API Key". -/
def runLoop (s0 : ProcessingStatus) (now : String)
    (press pressD : Nat → Bool) (total : Nat) :
    List PipeItem → Nat → RunState → RunState × Bool
  | [], _, st => (st, false)
  | it :: rest, i, st =>
    if st.flag || press i then
      let st1 : RunState := { st with
        flag := true
        errorMsg := some (cancelMsg st.results.length)
        status := ProcessingStatus.IDLE }
      if st1.results.length = 0 then (st1, true)
      else
        let st2 := { st1 with status := ProcessingStatus.GENERATING_DB }
        match saveToDb st2.results st2.db with
        | (db2, none) =>
          match getAllEmails db2 with
          | some _ =>
            ({ st2 with db := db2, status := ProcessingStatus.IDLE }, true)
          | none =>
            ({ st2 with
               db := db2
               status := ProcessingStatus.ERROR
               errorMsg := some ("Error procesando ficheros. " ++
                 toString st2.results.length ++
                 " procesado(s). Descarga los logs para detalles.") }, true)
        | (db2, some m) =>
          ({ st2 with
             db := db2
             status := ProcessingStatus.ERROR
             errorMsg := some (criticalMsg m st2.results.length) }, true)
    else
      let stA := if s0 ≠ ProcessingStatus.COMPLETED ∧
          s0 ≠ ProcessingStatus.ERROR then
        { st with errorMsg := some (progressMsg (i + 1) total it.name) }
        else st
      if i ≠ 0 ∧ pressD i then
        runLoop s0 now press pressD total rest (i + 1)
          { stA with
          flag := true
          errorMsg := some userCancelMsg }
      else
        let stB := { stA with
          status := ProcessingStatus.PARSING
          touched := stA.touched ++ [i] }
        match it.parse with
        | some pmsg =>
          runLoop s0 now press pressD total rest (i + 1)
            (catchStep it.name now ("Error parseando archivo: " ++
              (if pmsg = "" then "Error desconocido en parseo" else pmsg))
              stB)
        | none =>
          let stC := { stB with status := ProcessingStatus.ANALYZING }
          match it.analyze with
          | .error amsg =>
            runLoop s0 now press pressD total rest (i + 1)
              (catchStep it.name now ("Error en análisis de Gemini: " ++
                (if amsg = "" then "Error desconocido en análisis"
                  else amsg)) stC)
          | .ok a =>
            if a.tematica = "Error Cuota API" then
              ({ stC with
                 errorMsg := some quotaErrorMsg
                 status := ProcessingStatus.ERROR }, false)
            else if a.tematica = "Error en Análisis" then
              runLoop s0 now press pressD total rest (i + 1)
                { stC with perrors := stC.perrors ++
                  ["Error analizando " ++ it.name ++ ": " ++
                    a.contenido_resumido] }
            else
              let em := mkOkEmail it a now
              runLoop s0 now press pressD total rest (i + 1)
                { stC with
                  results := stC.results ++ [em]
                  db := (saveToDb [em] stC.db).1 }

/-- The code after the loop (App.tsx 375-405): error summary, the
`status !== ERROR` guard on the stale `s0`, and the final flag reset. -/
def postlude (s0 : ProcessingStatus) (pressEnd : Bool) (st : RunState) :
    RunState :=
  let stP := if pressEnd then
      { st with flag := true
                errorMsg := some userCancelMsg }
    else st
  let st1 := if stP.perrors.length = 0 then { stP with errorMsg := none }
    else stP
  let st2 := if s0 ≠ ProcessingStatus.ERROR ∧ stP.flag = false then
      (if st1.perrors.length = 0 then
        { st1 with
          status := ProcessingStatus.COMPLETED
          errorMsg := none }
      else
        { st1 with
          status := ProcessingStatus.COMPLETED
          errorMsg := some (summaryMsg st1.results.length
            st1.perrors.length) })
    else st1
  { st2 with flag := false }

/-- `processFiles` (App.tsx 144-420): flag reset and initial state
writes, the loop, and — unless the loop `return`ed early — the
postlude. -/
def processFiles (s0 : ProcessingStatus) (now : String)
    (press pressD : Nat → Bool) (items : List PipeItem)
    (st0 : RunState) : RunState :=
  if items.length = 0 then st0
  else
    match runLoop s0 now press pressD items.length items 0
      { st0 with
        flag := false
        status := ProcessingStatus.PARSING
        errorMsg := none
        results := []
        perrors := []
        touched := [] } with
    | (st, true) => st
    | (st, false) => postlude s0 (press items.length) st

/-- The record a non-sentinel item contributes to the store: an error
entry for a thrown item, the validated record for a success, nothing
for a sentinel result. -/
def itemEmail (now : String) (it : PipeItem) : Option AnalyzedEmail :=
  match it.parse with
  | some pmsg =>
    some (mkErrEmail it.name now ("Error parseando archivo: " ++
      (if pmsg = "" then "Error desconocido en parseo" else pmsg)))
  | none =>
    match it.analyze with
    | .error amsg =>
      some (mkErrEmail it.name now ("Error en análisis de Gemini: " ++
        (if amsg = "" then "Error desconocido en análisis" else amsg)))
    | .ok a =>
      if a.tematica = "Error Cuota API" then none
      else if a.tematica = "Error en Análisis" then none
      else some (mkOkEmail it a now)

/-- Whether the item's enrichment yields the batch-stopping quota
sentinel. -/
def quotaItem (it : PipeItem) : Bool :=
  match it.parse, it.analyze with
  | none, .ok a => a.tematica == "Error Cuota API"
  | _, _ => false

/-- One `saveToDb` of a single record, as the loop performs it. -/
def save1 (db : DBState) (e : AnalyzedEmail) : DBState :=
  (saveToDb [e] db).1

theorem catchStep_touched (name now msg : String) (st : RunState) :
    (catchStep name now msg st).touched = st.touched := rfl

theorem runLoop_no_cancel (s0 : ProcessingStatus) (now : String)
    (press pressD : Nat → Bool) (total : Nat)
    (hp : ∀ j, press j = false) (hpd : ∀ j, pressD j = false) :
    ∀ (items : List PipeItem) (i : Nat) (st : RunState),
      st.flag = false →
      (∀ it ∈ items, quotaItem it = false) →
      ∃ out, runLoop s0 now press pressD total items i st = (out, false) ∧
        out.flag = false ∧
        out.db = (items.filterMap (itemEmail now)).foldl save1 st.db ∧
        out.touched = st.touched ++ List.range' i items.length := by
  intro items
  induction items with
  | nil =>
    intro i st hflag hq
    exact ⟨st, rfl, hflag, rfl, by simp [List.range']⟩
  | cons it rest ih =>
    intro i st hflag hq
    rw [runLoop.eq_def]
    dsimp only
    rw [if_neg (fun hc => by rw [hflag, hp i] at hc; simp at hc)]
    obtain ⟨mA, hA⟩ : ∃ m,
        (if s0 ≠ ProcessingStatus.COMPLETED ∧ s0 ≠ ProcessingStatus.ERROR
          then { st with errorMsg := some (progressMsg (i + 1) total it.name) }
          else st) = { st with errorMsg := m } := by
      by_cases hc : s0 ≠ ProcessingStatus.COMPLETED ∧
        s0 ≠ ProcessingStatus.ERROR
      · exact ⟨some (progressMsg (i + 1) total it.name), if_pos hc⟩
      · exact ⟨st.errorMsg, by rw [if_neg hc]⟩
    rw [hA, if_neg (fun hc => Bool.false_ne_true ((hpd i) ▸ hc.2))]
    dsimp only
    have hqit : quotaItem it = false := hq it (List.mem_cons_self it rest)
    have hqrest : ∀ x ∈ rest, quotaItem x = false :=
      fun x hx => hq x (List.mem_cons_of_mem it hx)
    cases hparse : it.parse with
    | some pmsg =>
      have hie : itemEmail now it =
          some (mkErrEmail it.name now ("Error parseando archivo: " ++
            (if pmsg = "" then "Error desconocido en parseo"
              else pmsg))) := by
        simp only [itemEmail, hparse]
      obtain ⟨out, ho, hf, hdb, ht⟩ := ih (i + 1)
        (catchStep it.name now ("Error parseando archivo: " ++
          (if pmsg = "" then "Error desconocido en parseo" else pmsg))
          { st with
            errorMsg := mA
            status := ProcessingStatus.PARSING
            touched := st.touched ++ [i] }) hflag hqrest
      refine ⟨out, ho, hf, ?_, ?_⟩
      · rw [hdb, List.filterMap_cons_some hie, List.foldl_cons]
        rfl
      · rw [ht, List.length_cons, List.range'_succ, catchStep_touched]
        dsimp only
        rw [List.append_assoc]
        rfl
    | none =>
      dsimp only
      cases hana : it.analyze with
      | error amsg =>
        have hie : itemEmail now it =
            some (mkErrEmail it.name now ("Error en análisis de Gemini: " ++
              (if amsg = "" then "Error desconocido en análisis"
                else amsg))) := by
          simp only [itemEmail, hparse, hana]
        obtain ⟨out, ho, hf, hdb, ht⟩ := ih (i + 1)
          (catchStep it.name now ("Error en análisis de Gemini: " ++
            (if amsg = "" then "Error desconocido en análisis" else amsg))
            { st with
              errorMsg := mA
              status := ProcessingStatus.ANALYZING
              touched := st.touched ++ [i] }) hflag hqrest
        refine ⟨out, ho, hf, ?_, ?_⟩
        · rw [hdb, List.filterMap_cons_some hie, List.foldl_cons]
          rfl
        · rw [ht, List.length_cons, List.range'_succ, catchStep_touched]
          dsimp only
          rw [List.append_assoc]
          rfl
      | ok a =>
        dsimp only
        have hnq : ¬ a.tematica = "Error Cuota API" := by
          intro hcon
          have h2 : quotaItem it = true := by
            have h3 : quotaItem it = (a.tematica == "Error Cuota API") := by
              rw [quotaItem.eq_def, hparse, hana]
            rw [h3, hcon]
            rfl
          exact absurd (h2.symm.trans hqit) (by decide)
        rw [if_neg hnq]
        by_cases hgen : a.tematica = "Error en Análisis"
        · rw [if_pos hgen]
          have hie : itemEmail now it = none := by
            simp only [itemEmail, hparse, hana, if_neg hnq, if_pos hgen]
          obtain ⟨out, ho, hf, hdb, ht⟩ := ih (i + 1)
            { st with
              errorMsg := mA
              status := ProcessingStatus.ANALYZING
              touched := st.touched ++ [i]
              perrors := st.perrors ++
                ["Error analizando " ++ it.name ++ ": " ++
                  a.contenido_resumido] } hflag hqrest
          refine ⟨out, ho, hf, ?_, ?_⟩
          · rw [hdb, List.filterMap_cons_none hie]
          · rw [ht, List.length_cons, List.range'_succ]
            dsimp only
            rw [List.append_assoc]
            rfl
        · rw [if_neg hgen]
          have hie : itemEmail now it = some (mkOkEmail it a now) := by
            simp only [itemEmail, hparse, hana, if_neg hnq, if_neg hgen]
          obtain ⟨out, ho, hf, hdb, ht⟩ := ih (i + 1)
            { st with
              errorMsg := mA
              status := ProcessingStatus.ANALYZING
              touched := st.touched ++ [i]
              results := st.results ++ [mkOkEmail it a now]
              db := (saveToDb [mkOkEmail it a now] st.db).1 } hflag hqrest
          refine ⟨out, ho, hf, ?_, ?_⟩
          · rw [hdb, List.filterMap_cons_some hie, List.foldl_cons]
            rfl
          · rw [ht, List.length_cons, List.range'_succ]
            dsimp only
            rw [List.append_assoc]
            rfl

theorem postlude_flag (s0 : ProcessingStatus) (pe : Bool) (st : RunState) :
    (postlude s0 pe st).flag = false := rfl

theorem postlude_db (s0 : ProcessingStatus) (pe : Bool) (st : RunState) :
    (postlude s0 pe st).db = st.db := by
  rw [postlude]
  dsimp only
  split_ifs <;> rfl

theorem postlude_touched (s0 : ProcessingStatus) (pe : Bool)
    (st : RunState) : (postlude s0 pe st).touched = st.touched := by
  rw [postlude]
  dsimp only
  split_ifs <;> rfl

theorem postlude_false_status (s0 : ProcessingStatus) (st : RunState)
    (hs0 : s0 ≠ ProcessingStatus.ERROR) (hf : st.flag = false) :
    (postlude s0 false st).status = ProcessingStatus.COMPLETED := by
  rw [postlude]
  dsimp only
  rw [if_neg (by decide : ¬ (false = true))]
  by_cases h1 : st.perrors.length = 0
  · rw [if_pos h1, if_pos ⟨hs0, hf⟩, if_pos h1]
  · rw [if_neg h1, if_pos ⟨hs0, hf⟩, if_neg h1]

theorem runLoop_flag (s0 : ProcessingStatus) (now : String)
    (press pressD : Nat → Bool) (total : Nat)
    (hp : ∀ j, press j = false) (hpd : ∀ j, pressD j = false) :
    ∀ (items : List PipeItem) (i : Nat) (st : RunState),
      st.flag = false →
      ∃ out, runLoop s0 now press pressD total items i st = (out, false) ∧
        out.flag = false := by
  intro items
  induction items with
  | nil => intro i st hflag; exact ⟨st, rfl, hflag⟩
  | cons it rest ih =>
    intro i st hflag
    rw [runLoop.eq_def]
    dsimp only
    rw [if_neg (fun hc => by rw [hflag, hp i] at hc; simp at hc)]
    obtain ⟨mA, hA⟩ : ∃ m,
        (if s0 ≠ ProcessingStatus.COMPLETED ∧ s0 ≠ ProcessingStatus.ERROR
          then { st with errorMsg := some (progressMsg (i + 1) total it.name) }
          else st) = { st with errorMsg := m } := by
      by_cases hc : s0 ≠ ProcessingStatus.COMPLETED ∧
        s0 ≠ ProcessingStatus.ERROR
      · exact ⟨some (progressMsg (i + 1) total it.name), if_pos hc⟩
      · exact ⟨st.errorMsg, by rw [if_neg hc]⟩
    rw [hA, if_neg (fun hc => Bool.false_ne_true ((hpd i) ▸ hc.2))]
    dsimp only
    cases hparse : it.parse with
    | some pmsg => exact ih (i + 1) _ hflag
    | none =>
      dsimp only
      cases hana : it.analyze with
      | error amsg => exact ih (i + 1) _ hflag
      | ok a =>
        dsimp only
        split_ifs with hcq hcg
        · exact ⟨_, rfl, hflag⟩
        · exact ih (i + 1) _ hflag
        · exact ih (i + 1) _ hflag

def pnone : Nat → Bool := fun _ => false

def stIdle : RunState :=
  ⟨ProcessingStatus.IDLE, none, false, emptyDB, [], [], []⟩

def gItem : PipeItem :=
  ⟨"g.eml", "2024", "body", none,
    Except.ok ⟨"Error en Análisis", ["Error"], "fallo", [], ""⟩⟩

/-- C2 counterexample: a one-item batch whose enrichment returns the
generic analysis-failure sentinel, with no cancellation and no quota
sentinel.  The item's outcome is recorded only in the error list — the
`continue` at App.tsx 258-265 stores nothing — so `getAll()` reflects
zero of the one outcome. -/
theorem pipeline_generic_not_stored :
    (processFiles ProcessingStatus.IDLE "2024" pnone pnone [gItem]
      stIdle).db.rows = [] ∧
    (processFiles ProcessingStatus.IDLE "2024" pnone pnone [gItem]
      stIdle).perrors = ["Error analizando g.eml: fallo"] ∧
    getAllEmails (processFiles ProcessingStatus.IDLE "2024" pnone pnone
      [gItem] stIdle).db = some [] := by
  exact ⟨rfl, rfl, rfl⟩

theorem processFiles_no_cancel_spec (s0 : ProcessingStatus)
    (now : String) (press pressD : Nat → Bool) (items : List PipeItem)
    (st0 : RunState) (hne : items ≠ [])
    (hp : ∀ j, press j = false) (hpd : ∀ j, pressD j = false)
    (hq : ∀ it ∈ items, quotaItem it = false) :
    (processFiles s0 now press pressD items st0).db =
      (items.filterMap (itemEmail now)).foldl save1 st0.db ∧
    (processFiles s0 now press pressD items st0).touched =
      List.range items.length ∧
    (processFiles s0 now press pressD items st0).flag = false ∧
    (s0 ≠ ProcessingStatus.ERROR →
      (processFiles s0 now press pressD items st0).status =
        ProcessingStatus.COMPLETED) := by
  rw [processFiles, if_neg (fun h => hne (List.length_eq_zero.mp h))]
  obtain ⟨out, ho, hf, hdb, ht⟩ := runLoop_no_cancel s0 now press pressD
    items.length hp hpd items 0
    { st0 with
      flag := false
      status := ProcessingStatus.PARSING
      errorMsg := none
      results := []
      perrors := []
      touched := [] } rfl hq
  rw [ho]
  dsimp only
  have hpe : press items.length = false := hp _
  rw [hpe]
  refine ⟨?_, ?_, postlude_flag _ _ _, ?_⟩
  · rw [postlude_db, hdb]
  · rw [postlude_touched, ht]
    dsimp only
    rw [List.nil_append, List.range_eq_range']
  · intro hs0
    exact postlude_false_status s0 out hs0 hf

/-- C2 amended: in a batch with no cancellation and no quota sentinel,
every iteration runs, and the store receives exactly the per-item
records of the non-sentinel outcomes — each successful item's validated
record and each thrown item's error record, appended immediately in
order — while generic-sentinel items contribute nothing to the store;
the run then finishes with the flag clear and, unless the closure's
stale status was `ERROR`, in state `COMPLETED`. -/
theorem pipeline_store_amended (s0 : ProcessingStatus) (now : String)
    (press pressD : Nat → Bool) (items : List PipeItem) (st0 : RunState)
    (hne : items ≠ [])
    (hp : ∀ j, press j = false) (hpd : ∀ j, pressD j = false)
    (hq : ∀ it ∈ items, quotaItem it = false) :
    (processFiles s0 now press pressD items st0).db =
      (items.filterMap (itemEmail now)).foldl save1 st0.db ∧
    (processFiles s0 now press pressD items st0).touched =
      List.range items.length ∧
    (processFiles s0 now press pressD items st0).flag = false ∧
    (s0 ≠ ProcessingStatus.ERROR →
      (processFiles s0 now press pressD items st0).status =
        ProcessingStatus.COMPLETED) :=
  processFiles_no_cancel_spec s0 now press pressD items st0 hne hp hpd hq

def okPipeItem : PipeItem :=
  ⟨"ok.eml", "2024", "body", none,
    Except.ok ⟨"Tech", ["ai"], "resumen", [], "2024-01-01"⟩⟩

/-- Witness for the amended C2 theorem on a concrete two-item batch
(one success, one generic-sentinel failure). -/
theorem pipeline_store_amended_witness :
    (processFiles ProcessingStatus.IDLE "2024" pnone pnone
      [okPipeItem, gItem] stIdle).db =
      (([okPipeItem, gItem]).filterMap (itemEmail "2024")).foldl save1
        stIdle.db ∧
    (processFiles ProcessingStatus.IDLE "2024" pnone pnone
      [okPipeItem, gItem] stIdle).touched =
      List.range ([okPipeItem, gItem]).length ∧
    (processFiles ProcessingStatus.IDLE "2024" pnone pnone
      [okPipeItem, gItem] stIdle).flag = false ∧
    (ProcessingStatus.IDLE ≠ ProcessingStatus.ERROR →
      (processFiles ProcessingStatus.IDLE "2024" pnone pnone
        [okPipeItem, gItem] stIdle).status =
        ProcessingStatus.COMPLETED) :=
  pipeline_store_amended ProcessingStatus.IDLE "2024" pnone pnone
    [okPipeItem, gItem] stIdle (by decide) (fun j => rfl) (fun j => rfl)
    (by decide)

def qaItem : PipeItem :=
  ⟨"q.eml", "2024", "body", none,
    Except.ok ⟨"Error Cuota API", ["Error", "Quota"], quotaText, [], ""⟩⟩

/-- C3 (code bug): with the quota sentinel on item 0 of a two-item batch
and the closure's stale `status` equal to `IDLE`, the loop does stop
(only item 0 is touched, nothing reaches the store and item 1 is never
processed), but the batch does NOT end in state `Error`: the postlude's
`status !== ERROR` guard reads the stale render-time value, so the final
state is `COMPLETED` and the quota error message has been cleared. -/
theorem quota_stale_status_code_bug :
    (processFiles ProcessingStatus.IDLE "2024" pnone pnone
      [qaItem, okPipeItem] stIdle).touched = [0] ∧
    (processFiles ProcessingStatus.IDLE "2024" pnone pnone
      [qaItem, okPipeItem] stIdle).db.rows = [] ∧
    (processFiles ProcessingStatus.IDLE "2024" pnone pnone
      [qaItem, okPipeItem] stIdle).status = ProcessingStatus.COMPLETED ∧
    (processFiles ProcessingStatus.IDLE "2024" pnone pnone
      [qaItem, okPipeItem] stIdle).errorMsg = none := by
  exact ⟨rfl, rfl, rfl, rfl⟩

/-- C4: an item whose enrichment yields the generic analysis-failure
sentinel is item-skipping, not batch-stopping: in a batch containing
such an item (and no quota sentinel), with no cancellation, every index
of the batch is still processed and the batch finishes `COMPLETED`. -/
theorem generic_sentinel_skips (s0 : ProcessingStatus) (now : String)
    (press pressD : Nat → Bool) (items : List PipeItem) (st0 : RunState)
    (k : Nat) (gk : PipeItem) (a : Analysis)
    (hk : items.get? k = some gk) (hgp : gk.parse = none)
    (hga : gk.analyze = Except.ok a)
    (hgt : a.tematica = "Error en Análisis")
    (hne : items ≠ [])
    (hp : ∀ j, press j = false) (hpd : ∀ j, pressD j = false)
    (hq : ∀ it ∈ items, quotaItem it = false)
    (hs0 : s0 ≠ ProcessingStatus.ERROR) :
    (processFiles s0 now press pressD items st0).status =
      ProcessingStatus.COMPLETED ∧
    ∀ j, j < items.length →
      j ∈ (processFiles s0 now press pressD items st0).touched := by
  obtain ⟨-, ht, -, hst⟩ := processFiles_no_cancel_spec s0 now press
    pressD items st0 hne hp hpd hq
  refine ⟨hst hs0, ?_⟩
  intro j hj
  rw [ht]
  exact List.mem_range.mpr hj

/-- Witness for C4 at a concrete batch: a generic-sentinel item followed
by a normal item; the second index is still touched and the batch ends
`COMPLETED`. -/
theorem generic_sentinel_skips_witness :
    (processFiles ProcessingStatus.IDLE "2024" pnone pnone
      [gItem, okPipeItem] stIdle).status = ProcessingStatus.COMPLETED ∧
    ∀ j, j < ([gItem, okPipeItem]).length →
      j ∈ (processFiles ProcessingStatus.IDLE "2024" pnone pnone
        [gItem, okPipeItem] stIdle).touched :=
  generic_sentinel_skips ProcessingStatus.IDLE "2024" pnone pnone
    [gItem, okPipeItem] stIdle 0 gItem
    ⟨"Error en Análisis", ["Error"], "fallo", [], ""⟩
    rfl rfl rfl rfl (by decide) (fun j => rfl) (fun j => rfl) (by decide)
    (by decide)

/-- C9 counterexample: a run cancelled at the first loop-start check
returns through the cancellation branch (App.tsx 163-180) WITHOUT
resetting the cooperative cancellation flag — the batch ends with the
flag still `true`. -/
theorem cancel_leaves_flag_set :
    (processFiles ProcessingStatus.IDLE "2024" (fun _ => true) pnone
      [okPipeItem] stIdle).flag = true ∧
    (processFiles ProcessingStatus.IDLE "2024" (fun _ => true) pnone
      [okPipeItem] stIdle).status = ProcessingStatus.IDLE := by
  exact ⟨rfl, rfl⟩

/-- C9 amended: a batch that is never cancelled ends with the flag
`false` (the postlude resets it even after a quota `break`), and a
stale flag left `true` by a cancelled batch cannot leak into the next
batch's behaviour, because `processFiles` clears the flag first thing
(App.tsx 153): its result does not depend on the incoming flag value.
The cancellation `return` itself, however, leaves the flag set. -/
theorem cancel_flag_amended (s0 : ProcessingStatus) (now : String)
    (items : List PipeItem) (st0 : RunState) (hne : items ≠ [])
    (press pressD press2 pressD2 : Nat → Bool)
    (hp : ∀ j, press j = false) (hpd : ∀ j, pressD j = false) :
    (processFiles s0 now press pressD items st0).flag = false ∧
    (∀ b : Bool, processFiles s0 now press2 pressD2 items
        ⟨st0.status, st0.errorMsg, b, st0.db, st0.results, st0.perrors,
          st0.touched⟩ =
      processFiles s0 now press2 pressD2 items st0) := by
  constructor
  · rw [processFiles, if_neg (fun h => hne (List.length_eq_zero.mp h))]
    obtain ⟨out, ho, hf⟩ := runLoop_flag s0 now press pressD
      items.length hp hpd items 0
      { st0 with
        flag := false
        status := ProcessingStatus.PARSING
        errorMsg := none
        results := []
        perrors := []
        touched := [] } rfl
    rw [ho]
    dsimp only
    exact postlude_flag _ _ _
  · intro b
    rw [processFiles, processFiles,
      if_neg (fun h => hne (List.length_eq_zero.mp h)),
      if_neg (fun h => hne (List.length_eq_zero.mp h))]

/-- Witness for the amended C9 theorem at a concrete batch. -/
theorem cancel_flag_amended_witness :
    (processFiles ProcessingStatus.IDLE "2024" pnone pnone [okPipeItem]
      stIdle).flag = false ∧
    (∀ b : Bool, processFiles ProcessingStatus.IDLE "2024"
        (fun _ => true) pnone [okPipeItem]
        ⟨stIdle.status, stIdle.errorMsg, b, stIdle.db, stIdle.results,
          stIdle.perrors, stIdle.touched⟩ =
      processFiles ProcessingStatus.IDLE "2024" (fun _ => true) pnone
        [okPipeItem] stIdle) :=
  cancel_flag_amended ProcessingStatus.IDLE "2024" [okPipeItem] stIdle
    (by decide) pnone pnone (fun _ => true) pnone (fun j => rfl)
    (fun j => rfl)
